import Mathlib

/-!
The in-place manifest patcher of `main.go` (ets2-dlc-repacker).

A shallow embedding of `FindVersionFromManifest`, `FindLargestOffset`,
`DeflateBytes` and `RepackDLC`, with the properties of the archive-entry
patcher stated and proved over it.

Byte strings (`[]byte`) are lists of natural numbers below 256.  Signed machine
integers (`int32`, `int64`) are `Int`; the one narrowing conversion of the
program, `int32(len(..))`, is `toInt32`.
-/

set_option maxRecDepth 20000

namespace Repacker

/-- A Go byte slice. -/
abbrev Bytes := List Nat

/-- The bytes of an ASCII string literal. -/
def str (s : String) : Bytes := s.toList.map Char.toNat

/-! ## `VersionRegexp` and `FindVersionFromManifest` -/

/-- The class `\s` of Go regular expressions: tab, line feed, form feed,
carriage return and space. -/
def isSpace (b : Nat) : Bool := b == 9 || b == 10 || b == 12 || b == 13 || b == 32

/-- The class `["']`. -/
def isQuote (b : Nat) : Bool := b == 34 || b == 39

/-- The class `[^"']`. -/
def notQuote (b : Nat) : Bool := !isQuote b

/-- Consume the literal `p` at the start of `s`. -/
def stripLit : Bytes → Bytes → Option Bytes
  | [], s => some s
  | _ :: _, [] => none
  | a :: p, b :: s => if a = b then stripLit p s else none

/-- Consume the literal `p` at the start of `s` if it is there (`(p)?`). -/
def stripOpt (p s : Bytes) : Bytes := (stripLit p s).getD s

/-- The part `(package|compatible)` of `VersionRegexp`. -/
def matchKeyword (s : Bytes) : Option Bytes :=
  match stripLit (str "package") s with
  | some r => some r
  | none => stripLit (str "compatible") s

/-- The part `(package|compatible)_version(s)?(\[\])?:\s+["']` of
`VersionRegexp`: what is left of `s` after the opening quote. -/
def matchHeader (s : Bytes) : Option Bytes :=
  match matchKeyword s with
  | none => none
  | some r1 =>
    match stripLit (str "_version") r1 with
    | none => none
    | some r2 =>
      match stripLit (str ":") (stripOpt (str "[]") (stripOpt (str "s") r2)) with
      | none => none
      | some r3 =>
        match r3.dropWhile isSpace with
        | [] => none
        | q :: r4 => if r3.takeWhile isSpace ≠ [] ∧ isQuote q = true then some r4 else none

/-- The part `([^"']+)["']` of `VersionRegexp`: the captured group. -/
def matchValue (s : Bytes) : Option Bytes :=
  match s.dropWhile notQuote with
  | [] => none
  | _ :: _ => if s.takeWhile notQuote ≠ [] then some (s.takeWhile notQuote) else none

/-- `VersionRegexp` anchored at the start of `s`; the result is submatch 4.
Every choice point of the expression is decided by the next byte (the two
keywords start differently, `s`, `[` and `:` differ, a space is not a quote,
a byte of the value is not a quote), so the leftmost-first match of Go's
`regexp` at a position is the only match at that position. -/
def matchHere (s : Bytes) : Option Bytes :=
  match matchHeader s with
  | none => none
  | some r => matchValue r

/-- `VersionRegexp.FindSubmatch(manifest)[4]`: the leftmost match. -/
def findSubmatch : Bytes → Option Bytes
  | [] => none
  | b :: s =>
    match matchHere (b :: s) with
    | some v => some v
    | none => findSubmatch s

/-- `FindVersionFromManifest`; `none` is the fatal exit
`log.Fatal("No version found in DLC file")`. -/
def FindVersionFromManifest (manifest : Bytes) : Option Bytes := findSubmatch manifest


/-! ## `bytes.ReplaceAll` -/

/-- The width `utf8.DecodeRune` reports for the rune at the start of a
non-empty `s` (1 for an invalid or truncated encoding). -/
def runeWidth (s : Bytes) : Nat :=
  match s with
  | [] => 0
  | b0 :: t =>
    if b0 < 0x80 then 1
    else if b0 < 0xC2 ∨ 0xF4 < b0 then 1
    else
      let sz := if b0 < 0xE0 then 2 else if b0 < 0xF0 then 3 else 4
      let lo := if b0 = 0xE0 then 0xA0 else if b0 = 0xF0 then 0x90 else 0x80
      let hi := if b0 = 0xED then 0x9F else if b0 = 0xF4 then 0x8F else 0xBF
      if t.length + 1 < sz then 1
      else
        match t with
        | [] => 1
        | b1 :: t1 =>
          if b1 < lo ∨ hi < b1 then 1
          else if sz ≤ 2 then 2
          else
            match t1 with
            | [] => 1
            | b2 :: t2 =>
              if b2 < 0x80 ∨ 0xBF < b2 then 1
              else if sz ≤ 3 then 3
              else
                match t2 with
                | [] => 1
                | b3 :: _ => if b3 < 0x80 ∨ 0xBF < b3 then 1 else 4

/-- The branch `len(old) == 0` of `bytes.Replace`: `new` goes after every
rune.  `k` counts the bytes of the current rune still to be copied. -/
def insertAfterRunes (new : Bytes) : Nat → Bytes → Bytes
  | _, [] => []
  | k, b :: s =>
    let w := if k = 0 then runeWidth (b :: s) else k
    if w ≤ 1 then b :: (new ++ insertAfterRunes new 0 s)
    else b :: insertAfterRunes new (w - 1) s

/-- The branch `len(old) > 0` of `bytes.Replace` with `n = -1`: scan from the
left, replace each occurrence found by `Index`, continue after it.  `k` counts
the bytes of the occurrence just replaced that are still to be skipped. -/
def replaceGo (old new : Bytes) : Nat → Bytes → Bytes
  | _, [] => []
  | k + 1, _ :: s => replaceGo old new k s
  | 0, b :: s =>
    if old.isPrefixOf (b :: s) then new ++ replaceGo old new (old.length - 1) s
    else b :: replaceGo old new 0 s

/-- `bytes.ReplaceAll(s, old, new)`. -/
def ReplaceAll (s old new : Bytes) : Bytes :=
  if old = [] then new ++ insertAfterRunes new 0 s else replaceGo old new 0 s

/-! ## `crc32.ChecksumIEEE` -/

/-- One bit of the reflected CRC-32 with the IEEE polynomial `0xedb88320`. -/
def crcBit (c : Nat) : Nat := if c % 2 = 1 then (c / 2) ^^^ 0xEDB88320 else c / 2

/-- One byte of the CRC-32 register update. -/
def crcByte (c b : Nat) : Nat :=
  crcBit (crcBit (crcBit (crcBit (crcBit (crcBit (crcBit (crcBit (c ^^^ b))))))))

/-- `crc32.ChecksumIEEE(data)`. -/
def ChecksumIEEE (data : Bytes) : Nat := (data.foldl crcByte 0xFFFFFFFF) ^^^ 0xFFFFFFFF


/-! ## The archive as `RepackDLC` sees it -/

/-- The conversion `int32(n)` of a Go `int`: wrap-around modulo `2^32`. -/
def toInt32 (n : Int) : Int := (n + 2147483648) % 4294967296 - 2147483648

/-- `math.MinInt64`. -/
def MinInt64 : Int := -9223372036854775808

/-- The record `scs.CatalogEntry`, declared in package `scs`.  `RepackDLC`
reads and writes the five fields below (`Type_` is the field `Type`); `Rest` stands for the fields of the
record it never touches. -/
structure CatalogEntry where
  Offset : Int
  CRC : Nat
  Size : Int
  ZSize : Int
  Type_ : Nat
  Rest : Bytes
deriving DecidableEq, Repr

/-- An element of `reader.Files` (`scs.File`).  The catalog record is embedded
in it, so `file.Offset`, `file.Size` and `file.ZSize` are the fields of
`file.CatalogEntry`.  `Payload` is the buffer `manifest` of `file.Size` bytes
after `src.Read(manifest)`, that is, the decompressed content the archive
reader delivers for the entry. -/
structure File where
  Name : String
  CatalogOffset : Int
  CatalogEntry : CatalogEntry
  Payload : Bytes
deriving DecidableEq, Repr

/-- The value `scs.NewReader` returns, as far as `RepackDLC` uses it. -/
structure Reader where
  Files : List File
deriving DecidableEq, Repr

/-- What `RepackDLC` takes from outside `main.go`. -/
structure Env where
  /-- The bytes a `flate.NewWriter(_, flate.BestCompression)` emits for the
  data copied into it, up to `Close`: a raw DEFLATE stream. -/
  flate : Bytes → Bytes
  /-- The bytes `binary.Write(&headerBuffer, binary.LittleEndian, entry)`
  leaves in the buffer; nothing when it fails (its error is dropped). -/
  encode : CatalogEntry → Bytes
  /-- The constant `scs.EntryTypeCompressedFileCopy`. -/
  EntryTypeCompressedFileCopy : Nat

/-- `ManifestSuffix`. -/
def ManifestSuffix : String := ".manifest.sii"

/-- `ZlibBestCompression`. -/
def ZlibBestCompression : Bytes := [0x78, 0xDA]

/-- `strings.HasSuffix(file.Name, ManifestSuffix)`. -/
def isManifest (file : File) : Bool := ManifestSuffix.toList.isSuffixOf file.Name.toList

/-- `FindLargestOffset`. -/
def FindLargestOffset (reader : Reader) : Int :=
  reader.Files.foldl (fun largestOffset file =>
    if file.CatalogEntry.Offset > largestOffset then file.CatalogEntry.Offset else largestOffset)
    MinInt64

/-- `DeflateBytes`.  Its error result is always `nil`: `flate.NewWriter`
accepts the level `flate.BestCompression`, and `io.Copy` from a
`bytes.Reader` into a writer over a `bytes.Buffer` does not fail. -/
def DeflateBytes (env : Env) (data : Bytes) : Bytes := ZlibBestCompression ++ env.flate data

/-- `f.WriteAt(b, off)` on a file with content `f`: `none` for a negative
offset (the call fails and writes nothing); a write past the end of the file
fills the gap with zero bytes. -/
def WriteAt (f b : Bytes) (off : Int) : Option Bytes :=
  if off < 0 then none
  else if b = [] then some f
  else some (f.take off.toNat ++ List.replicate (off.toNat - f.length) 0 ++ b
    ++ f.drop (off.toNat + b.length))

/-- How a run of `RepackDLC` ends. -/
inductive Outcome where
  /-- The loop over `reader.Files` met no manifest entry; nothing is written. -/
  | noManifest
  /-- The early `return`: the version is the target already. -/
  | upToDate
  /-- A `log.Fatal` exit; `data` is the content of the file at that moment. -/
  | fatal (data : Bytes)
  /-- Both writes done: the record and payload written, and the file. -/
  | patched (entry : CatalogEntry) (compressed : Bytes) (data : Bytes)
deriving DecidableEq, Repr

/-- The manifest after `bytes.ReplaceAll(manifest, version, targetVersion)`. -/
def patchManifest (manifest version targetVersion : Bytes) : Bytes :=
  ReplaceAll manifest version targetVersion

/-- Lines 229-237: the value of `file.CatalogEntry.Offset` after the placement
decision; `fileLen` is `stat.Size()`. -/
def placeOffset (reader : Reader) (file : File) (compressed : Bytes) (fileLen : Nat) : Int :=
  if file.CatalogEntry.ZSize < toInt32 compressed.length
      ∧ file.CatalogEntry.Offset ≠ FindLargestOffset reader then
    (fileLen : Int)
  else file.CatalogEntry.Offset

/-- Lines 229-242: `file.CatalogEntry` after the five assignments. -/
def updateEntry (env : Env) (reader : Reader) (file : File) (manifest compressed : Bytes)
    (fileLen : Nat) : CatalogEntry :=
  { file.CatalogEntry with
    Offset := placeOffset reader file compressed fileLen
    CRC := ChecksumIEEE manifest
    Size := toInt32 manifest.length
    ZSize := toInt32 compressed.length
    Type_ := env.EntryTypeCompressedFileCopy }

/-- The body of the loop of `RepackDLC` for a manifest entry `file` of an
archive whose bytes on disk are `data`.  Failures of the operating system
(open, stat, short write) are left out; the exits decided by the data are
all there. -/
def repackFile (env : Env) (data : Bytes) (reader : Reader) (file : File)
    (targetVersion : Bytes) : Outcome :=
  match FindVersionFromManifest file.Payload with
  | none => Outcome.fatal data
  | some version =>
    if version = targetVersion then Outcome.upToDate
    else
      let manifest := patchManifest file.Payload version targetVersion
      let compressed := DeflateBytes env manifest
      let entry := updateEntry env reader file manifest compressed data.length
      let header := env.encode entry
      if header.length ≠ 32 then Outcome.fatal data
      else
        match WriteAt data compressed entry.Offset with
        | none => Outcome.fatal data
        | some data1 =>
          match WriteAt data1 header file.CatalogOffset with
          | none => Outcome.fatal data1
          | some data2 => Outcome.patched entry compressed data2

/-- `RepackDLC` on the archive with bytes `data` that `scs.NewReader` reads as
`reader`: the first entry whose name ends in `ManifestSuffix` is processed,
and the loop ends there. -/
def RepackDLC (env : Env) (data : Bytes) (reader : Reader) (targetVersion : Bytes) : Outcome :=
  match reader.Files.find? isManifest with
  | none => Outcome.noManifest
  | some file => repackFile env data reader file targetVersion

/-- The content of the file after a run that started from `data`. -/
def Outcome.fileAfter (data : Bytes) : Outcome → Bytes
  | Outcome.noManifest => data
  | Outcome.upToDate => data
  | Outcome.fatal d => d
  | Outcome.patched _ _ d => d

/-! ## The version field, declaratively -/

/-- The eight field names `(package|compatible)_version(s)?(\[\])?` stands for. -/
def acceptedNames : List Bytes :=
  [str "package_version", str "package_versions", str "package_version[]",
   str "package_versions[]", str "compatible_version", str "compatible_versions",
   str "compatible_version[]", str "compatible_versions[]"]

/-- The four field names the specification lists. -/
def specNames : List Bytes :=
  [str "package_version", str "package_versions[]", str "compatible_version",
   str "compatible_versions[]"]

/-- The byte string `s` starts with a version field with value `v`, for the
field names `names`: a name, a colon, one or more whitespace bytes, a quote,
the non-empty value `v` free of quotes, and a quote. -/
def FieldAt (names : List Bytes) (s v : Bytes) : Prop :=
  ∃ name ws q1 q2 rest, name ∈ names ∧ ws ≠ [] ∧ (∀ b ∈ ws, isSpace b = true) ∧
    isQuote q1 = true ∧ v ≠ [] ∧ (∀ b ∈ v, isQuote b = false) ∧ isQuote q2 = true ∧
    s = name ++ str ":" ++ ws ++ [q1] ++ v ++ [q2] ++ rest

/-- The manifest holds a version field, for the field names `names`, right
after its prefix `pre`, with value `v`. -/
def Occurs (names : List Bytes) (manifest pre v : Bytes) : Prop :=
  ∃ s, manifest = pre ++ s ∧ FieldAt names s v

/-- The version field after `pre`, with value `v`, is the leftmost one of the
manifest. -/
def Leftmost (names : List Bytes) (manifest pre v : Bytes) : Prop :=
  Occurs names manifest pre v ∧
  ∀ pre' v', Occurs names manifest pre' v' → pre.length ≤ pre'.length

/-- A manifest whose only version field is spelled `package_versions`. -/
def pluralManifest : Bytes := str "package_versions: \"1.49\""

/-- The manifest is `head ++ v ++ tail`, where `head` ends with the opening
quote of the leftmost version field of the manifest, `v` is the value of that
field and `tail` starts with its closing quote. -/
def LeftmostValue (manifest head v tail : Bytes) : Prop :=
  ∃ pre name ws q1 q2 rest, name ∈ acceptedNames ∧ ws ≠ [] ∧ (∀ b ∈ ws, isSpace b = true) ∧
    isQuote q1 = true ∧ v ≠ [] ∧ (∀ b ∈ v, isQuote b = false) ∧ isQuote q2 = true ∧
    head = pre ++ (name ++ str ":" ++ ws) ++ [q1] ∧ tail = q2 :: rest ∧
    manifest = head ++ v ++ tail ∧
    ∀ pre' v', Occurs acceptedNames manifest pre' v' → pre.length ≤ pre'.length

/-! ## Where the old token occurs -/

/-- No occurrence of `old` starts inside `seg`, in a text where `old` follows
`seg`. -/
def NoEarly (seg old : Bytes) : Prop :=
  ∀ k, k < seg.length → old.isPrefixOf ((seg ++ old).drop k) = false

/-- The token `old` does not occur in `last`. -/
def NoOccurrence (last old : Bytes) : Prop :=
  ∀ k, k < last.length → old.isPrefixOf (last.drop k) = false

/-- The text `seg₀ tok seg₁ tok … segₙ₋₁ tok last`. -/
def fillSegments (segs : List Bytes) (tok last : Bytes) : Bytes :=
  (segs.map (fun seg => seg ++ tok)).flatten ++ last

/-- Whether no occurrence starts inside a segment can be computed. -/
instance (seg old : Bytes) : Decidable (NoEarly seg old) := by
  unfold NoEarly
  infer_instance

/-- Whether a token occurs in a text can be computed. -/
instance (last old : Bytes) : Decidable (NoOccurrence last old) := by
  unfold NoOccurrence
  infer_instance

/-- The texts of the manifest of the scenario before its two version values. -/
def demoSegments : List Bytes :=
  [str "display_name: \"Cabin Accessories\" package_version: \"",
   str "\" compatible_versions[]: \""]

/-- The text of the manifest of the scenario after its last version value. -/
def demoLast : Bytes := str "\""

/-- A manifest whose display name contains the text of its version. -/
def nameManifest : Bytes := str "display_name: \"DLC 1.49\" package_version: \"1.49\""

/-- The manifest of the scenario up to the opening quote of its first version
field. -/
def demoHead : Bytes := str "display_name: \"Cabin Accessories\" package_version: \""

/-- The manifest of the scenario from the closing quote of its first version
field on. -/
def demoTail : Bytes := str "\" compatible_versions[]: \"1.49\""

/-- A manifest whose first version field has the value `k`, a byte string
that also occurs in the field name `package_version`. -/
def keyManifest : Bytes := str "package_version: \"k\" compatible_versions[]: \"1.49\""

/-- The manifest `keyManifest` after the substitution of `1.50` for `k`. -/
def keyPatched : Bytes := str "pac1.50age_version: \"1.50\" compatible_versions[]: \"1.49\""

/-! ## Data regions -/

/-- The byte position `x` lies in the region `[off, off + len)`. -/
def InRegion (off len x : Int) : Prop := off ≤ x ∧ x < off + len

/-- Two regions overlap when they share a byte position. -/
def Overlap (o1 l1 o2 l2 : Int) : Prop := ∃ x, InRegion o1 l1 x ∧ InRegion o2 l2 x

/-- The data regions `[Offset, Offset + ZSize)` of two entries are disjoint. -/
def DisjointData (a b : File) : Prop :=
  ¬ Overlap a.CatalogEntry.Offset a.CatalogEntry.ZSize b.CatalogEntry.Offset b.CatalogEntry.ZSize

/-- The data region of an entry lies inside a file of `fileLen` bytes. -/
def InsideFile (fileLen : Nat) (a : File) : Prop :=
  0 ≤ a.CatalogEntry.Offset ∧ a.CatalogEntry.Offset + a.CatalogEntry.ZSize ≤ (fileLen : Int)

/-! ## A concrete environment and archive, for evaluating the model -/

/-- The `k` low bytes of `n`, least significant first. -/
def leBytes : Nat → Nat → Bytes
  | 0, _ => []
  | k + 1, n => (n % 256) :: leBytes k (n / 256)

/-- A DEFLATE encoder that emits one final stored block (for data shorter than
65536 bytes): a stand-in for `compress/flate`. -/
def storedFlate (data : Bytes) : Bytes :=
  [1] ++ leBytes 2 data.length ++ leBytes 2 (65535 - data.length % 65536) ++ data

/-- A little-endian encoding of a catalog record with an 8-byte `Rest`:
`Rest`, `Offset` (8 bytes), `Type` (4), `CRC` (4), `Size` (4), `ZSize` (4).
It has 32 bytes exactly when `Rest` has 8. -/
def demoEncode (e : CatalogEntry) : Bytes :=
  e.Rest ++ leBytes 8 (e.Offset % 18446744073709551616).toNat ++ leBytes 4 e.Type_
    ++ leBytes 4 e.CRC ++ leBytes 4 (e.Size % 4294967296).toNat
    ++ leBytes 4 (e.ZSize % 4294967296).toNat

/-- An environment to evaluate `RepackDLC` in. -/
def demoEnv : Env where
  flate := storedFlate
  encode := demoEncode
  EntryTypeCompressedFileCopy := 6

/-- The manifest of the scenario of the specification. -/
def demoManifest : Bytes :=
  str "display_name: \"Cabin Accessories\" package_version: \"1.49\" compatible_versions[]: \"1.49\""

/-- A manifest entry stored at offset `off` with recorded compressed size `z`. -/
def demoFile (off z : Int) (payload : Bytes) : File where
  Name := "dlc_toys.manifest.sii"
  CatalogOffset := 48
  CatalogEntry :=
    { Offset := off, CRC := 0, Size := payload.length, ZSize := z, Type_ := 2,
      Rest := [1, 2, 3, 4, 5, 6, 7, 8] }
  Payload := payload

/-- A manifest entry of the stored (uncompressed) type at offset `off`, with
recorded compressed size `z`. -/
def storedFile (off z : Int) (payload : Bytes) : File where
  Name := "dlc_toys.manifest.sii"
  CatalogOffset := 48
  CatalogEntry :=
    { Offset := off, CRC := 0, Size := payload.length, ZSize := z, Type_ := 0,
      Rest := [1, 2, 3, 4, 5, 6, 7, 8] }
  Payload := payload

/-- Another entry of the archive, stored at offset `off` with compressed size `z`. -/
def otherFile (off z : Int) : File where
  Name := "def/world.sii"
  CatalogOffset := 16
  CatalogEntry :=
    { Offset := off, CRC := 7, Size := z, ZSize := z, Type_ := 0,
      Rest := [8, 7, 6, 5, 4, 3, 2, 1] }
  Payload := []

/-- The bytes of a 300-byte archive file (their values play no part). -/
def demoData : Bytes := List.replicate 300 0

/-- The manifest entry at offset 100 is followed by another entry at offset 250. -/
def demoReaderMid : Reader := ⟨[demoFile 100 60 demoManifest, otherFile 250 50]⟩

/-- The manifest entry at offset 250 is the last payload of the data region. -/
def demoReaderLast : Reader := ⟨[otherFile 100 60, demoFile 250 50 demoManifest]⟩

/-- The manifest of the scenario after the substitution of `1.50` for `1.49`. -/
def demoPatched : Bytes :=
  str "display_name: \"Cabin Accessories\" package_version: \"1.50\" compatible_versions[]: \"1.50\""

/-- The payload written for `demoPatched`. -/
def demoCompressed : Bytes := DeflateBytes demoEnv demoPatched

/-- The record written when the manifest entry lies at offset 100, before
another entry: the payload moves to the end of the file, offset 300. -/
def demoEntryMid : CatalogEntry :=
  { Offset := 300, CRC := 1241173453, Size := 87, ZSize := 94, Type_ := 6,
    Rest := [1, 2, 3, 4, 5, 6, 7, 8] }

/-- The file after the run on `demoReaderMid`. -/
def demoAfterMid : Bytes :=
  List.replicate 48 0 ++ demoEncode demoEntryMid ++ List.replicate 220 0 ++ demoCompressed

/-- A manifest entry whose record has a 3-byte `Rest`: `demoEncode` gives 27
bytes for it. -/
def shortFile : File :=
  { demoFile 100 60 demoManifest with
    CatalogEntry := { Offset := 100, CRC := 0, Size := 87, ZSize := 60, Type_ := 2, Rest := [1, 2, 3] } }

/-- An archive whose manifest entry is `shortFile`. -/
def demoReaderShort : Reader := ⟨[shortFile, otherFile 250 50]⟩

/-- An archive whose manifest entry, at the largest data offset 100, has the
recorded compressed size 0, while the data of another entry occupies
`[90, 110)`. -/
def demoReaderZero : Reader := ⟨[otherFile 90 20, storedFile 100 0 demoManifest]⟩

/-- The record written on `demoReaderZero`: the payload stays at offset 100. -/
def demoEntryZero : CatalogEntry :=
  { Offset := 100, CRC := 1241173453, Size := 87, ZSize := 94, Type_ := 6,
    Rest := [1, 2, 3, 4, 5, 6, 7, 8] }

/-- The file after the run on `demoReaderZero`. -/
def demoAfterZero : Bytes :=
  List.replicate 48 0 ++ demoEncode demoEntryZero ++ List.replicate 20 0 ++ demoCompressed
    ++ List.replicate 106 0

/-! ## A payload of `2^31` bytes -/

/-- An environment whose compressor emits a stream of `2^31 - 2` bytes, so
that the payload of `DeflateBytes` has `2^31` bytes. -/
def bigEnv : Env where
  flate := fun _ => List.replicate 2147483646 0
  encode := demoEncode
  EntryTypeCompressedFileCopy := 6

/-- The payload of `2^31` bytes written in `bigEnv`. -/
def bigCompressed : Bytes := DeflateBytes bigEnv demoPatched

/-- The record written in `bigEnv` for the manifest entry of `demoReaderMid`:
the data offset is still 100 and `ZSize` is `int32(2^31)`. -/
def bigEntry : CatalogEntry :=
  { Offset := 100, CRC := 1241173453, Size := 87, ZSize := -2147483648, Type_ := 6,
    Rest := [1, 2, 3, 4, 5, 6, 7, 8] }

/-! ## Reading the archive again -/

/-- The `n` bytes of the file from offset `off` on, as far as the file holds
them. -/
def sliceAt (f : Bytes) (off n : Int) : Bytes :=
  if off < 0 ∨ n < 0 then [] else (f.drop off.toNat).take n.toNat

/-- Lines 180-192 of `RepackDLC` followed by its loop, for a file with bytes
`data`: `NewReader` stands for `scs.NewReader` together with `file.Open` and
`src.Read` (it yields the entries with their content); when it fails the run
ends in the fatal exit of line 191. -/
def RepackDLCFile (env : Env) (NewReader : Bytes → Option Reader) (data targetVersion : Bytes) :
    Outcome :=
  match NewReader data with
  | none => Outcome.fatal data
  | some reader => RepackDLC env data reader targetVersion

/-- Modelled from the spec: the archive reader (package `scs`, not part of
`main.go`) is "assumed correct", and "entries and CatalogRecords are read
fresh from the file at the start of each archive's processing".  For an entry
`file` that the reader reports for a file with bytes `data`, this says that
the record reported is the one decoded from the 32 bytes at
`file.CatalogOffset`, and that the content of an entry of the type
`EntryTypeCompressedFileCopy` is the decompressed form of the bytes of its
data region `[Offset, Offset + ZSize)`. -/
def ReadsFresh (env : Env) (decode : Bytes → Option CatalogEntry)
    (inflate : Bytes → Option Bytes) (data : Bytes) (file : File) : Prop :=
  decode (sliceAt data file.CatalogOffset 32) = some file.CatalogEntry ∧
  (file.CatalogEntry.Type_ = env.EntryTypeCompressedFileCopy →
    inflate (sliceAt data file.CatalogEntry.Offset file.CatalogEntry.ZSize) = some file.Payload)

/-! ## A reader for a small archive layout, for evaluating two runs -/

/-- The number with the little-endian bytes `b`. -/
def fromLE : Bytes → Nat
  | [] => 0
  | b :: s => b + 256 * fromLE s

/-- The signed reading of an unsigned value of `w` bits. -/
def toSigned (w n : Nat) : Int := if n < 2 ^ (w - 1) then (n : Int) else (n : Int) - 2 ^ w

/-- The inverse of `demoEncode` on 32 bytes. -/
def demoDecode (b : Bytes) : Option CatalogEntry :=
  if b.length = 32 then
    some { Rest := b.take 8
           Offset := toSigned 64 (fromLE ((b.drop 8).take 8))
           Type_ := fromLE ((b.drop 16).take 4)
           CRC := fromLE ((b.drop 20).take 4)
           Size := toSigned 32 (fromLE ((b.drop 24).take 4))
           ZSize := toSigned 32 (fromLE ((b.drop 28).take 4)) }
  else none

/-- The inverse of `DeflateBytes demoEnv`: the two header bytes, then one final
stored block. -/
def demoInflate : Bytes → Option Bytes
  | 0x78 :: 0xDA :: 1 :: l0 :: l1 :: n0 :: n1 :: data =>
    if data.length = l0 + 256 * l1 ∧ n0 + 256 * n1 = 65535 - (l0 + 256 * l1) then some data
    else none
  | _ => none

/-- The content the small reader delivers for a record: the decompressed data
region for the compressed types 2 and 6, the `Size` bytes at `Offset`
otherwise. -/
def demoContent (f : Bytes) (e : CatalogEntry) : Bytes :=
  if e.Type_ = 2 ∨ e.Type_ = 6 then (demoInflate (sliceAt f e.Offset e.ZSize)).getD []
  else sliceAt f e.Offset e.Size

/-- Modelled from the spec: a stand-in for the archive reader (package `scs`,
not part of `main.go`) on archives with two catalog records, at the offsets
16 and 48.  As the specification has it, the reader offers per entry the
name, the sizes, the data offset, the offset of its catalog record and the
decompressed content, read fresh from the file: both records are decoded from
the bytes of the file, and the content of each entry is read from the data
region its record names. -/
def demoNewReader (f : Bytes) : Option Reader :=
  match demoDecode (sliceAt f 16 32), demoDecode (sliceAt f 48 32) with
  | some e0, some e1 =>
    some ⟨[⟨"def/world.sii", 16, e0, demoContent f e0⟩,
           ⟨"dlc_toys.manifest.sii", 48, e1, demoContent f e1⟩]⟩
  | _, _ => none

/-- The record of the first entry of the small archives: 50 stored bytes at
offset 100. -/
def worldEntry : CatalogEntry :=
  { Offset := 100, CRC := 7, Size := 50, ZSize := 50, Type_ := 0,
    Rest := [8, 7, 6, 5, 4, 3, 2, 1] }

/-- The bytes of a small archive: the two records at 16 and 48, the content
of the first entry at `[100, 150)`, and the payload of the manifest entry from
offset 250 to the end of the file. -/
def layoutBytes (record : CatalogEntry) (payload : Bytes) : Bytes :=
  List.replicate 16 0 ++ demoEncode worldEntry ++ demoEncode record ++ List.replicate 20 0
    ++ List.replicate 50 9 ++ List.replicate 100 0 ++ payload

/-- The manifest entry of a small archive, with record `record` and content
`manifest`. -/
def layoutFile (record : CatalogEntry) (manifest : Bytes) : File :=
  ⟨"dlc_toys.manifest.sii", 48, record, manifest⟩

/-- The entries `demoNewReader` reads from `layoutBytes record payload` when
`payload` is the compressed form of `manifest`. -/
def layoutReader (record : CatalogEntry) (manifest : Bytes) : Reader :=
  ⟨[⟨"def/world.sii", 16, worldEntry, List.replicate 50 9⟩, layoutFile record manifest]⟩

/-- The record of a manifest entry compressed at offset 250, before a run. -/
def manifestEntry (manifest : Bytes) : CatalogEntry :=
  { Offset := 250, CRC := 0, Size := manifest.length, ZSize := manifest.length + 7, Type_ := 2,
    Rest := [1, 2, 3, 4, 5, 6, 7, 8] }

/-- The small archive with the manifest of the scenario. -/
def sceneData : Bytes := layoutBytes (manifestEntry demoManifest) (DeflateBytes demoEnv demoManifest)

/-- The record written by the run on `sceneData`. -/
def sceneEntry : CatalogEntry :=
  { Offset := 250, CRC := 1241173453, Size := 87, ZSize := 94, Type_ := 6,
    Rest := [1, 2, 3, 4, 5, 6, 7, 8] }

/-- The small archive with the manifest `keyManifest`. -/
def keyData : Bytes := layoutBytes (manifestEntry keyManifest) (DeflateBytes demoEnv keyManifest)

/-- The manifest `keyPatched` after the substitution of `1.50` for `1.49`. -/
def keyPatched2 : Bytes := str "pac1.50age_version: \"1.50\" compatible_versions[]: \"1.50\""

/-- The record the first run writes on `keyData`. -/
def keyEntry1 : CatalogEntry :=
  { Offset := 250, CRC := 2844110281, Size := 56, ZSize := 63, Type_ := 6,
    Rest := [1, 2, 3, 4, 5, 6, 7, 8] }

/-- The file after the run on `sceneData`. -/
def sceneAfter : Bytes := layoutBytes sceneEntry demoCompressed

/-- The payload the first run writes on `keyData`. -/
def keyCompressed1 : Bytes := DeflateBytes demoEnv keyPatched

/-- The file after the first run on `keyData`. -/
def keyAfter1 : Bytes := layoutBytes keyEntry1 keyCompressed1

/-- The payload the second run writes on `keyData`. -/
def keyCompressed2 : Bytes := DeflateBytes demoEnv keyPatched2

/-- The record the second run writes on `keyData`. -/
def keyEntry2 : CatalogEntry :=
  { Offset := 250, CRC := 2038791351, Size := 56, ZSize := 63, Type_ := 6,
    Rest := [1, 2, 3, 4, 5, 6, 7, 8] }

/-- The file after the second run on `keyData`. -/
def keyAfter2 : Bytes := layoutBytes keyEntry2 keyCompressed2

/-! ## Facts about a patching run -/

/-- What a run that ends in `Outcome.patched` went through. -/
theorem repackFile_patched {env : Env} {data : Bytes} {reader : Reader} {file : File}
    {targetVersion : Bytes} {entry : CatalogEntry} {compressed d : Bytes}
    (h : repackFile env data reader file targetVersion = Outcome.patched entry compressed d) :
    ∃ version d1,
      FindVersionFromManifest file.Payload = some version ∧ version ≠ targetVersion ∧
      compressed = DeflateBytes env (patchManifest file.Payload version targetVersion) ∧
      entry = updateEntry env reader file (patchManifest file.Payload version targetVersion)
        compressed data.length ∧
      (env.encode entry).length = 32 ∧
      WriteAt data compressed entry.Offset = some d1 ∧
      WriteAt d1 (env.encode entry) file.CatalogOffset = some d := by
  unfold repackFile at h
  split at h
  · cases h
  · rename_i version hv
    split at h
    · cases h
    · rename_i hne
      simp only at h
      split at h
      · cases h
      · rename_i hlen
        split at h
        · cases h
        · rename_i d1 hw1
          split at h
          · cases h
          · rename_i d2 hw2
            injection h with h1 h2 h3
            subst h1 h2 h3
            exact ⟨version, d1, hv, hne, rfl, rfl, by simpa using hlen, hw1, hw2⟩

/-- A run of `RepackDLC` is the loop body on the first manifest entry. -/
theorem RepackDLC_eq {env : Env} {data : Bytes} {reader : Reader} {file : File}
    {targetVersion : Bytes} (hfile : reader.Files.find? isManifest = some file) :
    RepackDLC env data reader targetVersion = repackFile env data reader file targetVersion := by
  simp [RepackDLC, hfile]

/-- Below `2^31` the conversion `int32(n)` keeps the value. -/
theorem toInt32_of_lt {n : Nat} (h : n < 2147483648) : toInt32 (n : Int) = (n : Int) := by
  unfold toInt32
  omega

/-- A write does not shorten the file. -/
theorem WriteAt_length_le {f b g : Bytes} {off : Int} (h : WriteAt f b off = some g) :
    f.length ≤ g.length := by
  unfold WriteAt at h
  split at h
  · cases h
  · split at h
    · cases h; exact le_rfl
    · cases h
      simp only [List.length_append, List.length_take, List.length_replicate, List.length_drop]
      omega

/-- A write leaves every byte outside `[off, off + len(b))` as it was. -/
theorem WriteAt_frame {f b g : Bytes} {off : Int} (h : WriteAt f b off = some g)
    (i : Nat) (hi : i < f.length)
    (hout : ¬ (off ≤ (i : Int) ∧ (i : Int) < off + (b.length : Int))) :
    g[i]? = f[i]? := by
  unfold WriteAt at h
  split at h
  · cases h
  · rename_i hoff
    split at h
    · cases h; rfl
    · cases h
      have hoff0 : 0 ≤ off := not_lt.mp hoff
      obtain ⟨o, rfl⟩ := Int.eq_ofNat_of_zero_le hoff0
      simp only [Int.toNat_ofNat]
      have hcase : i < o ∨ o + b.length ≤ i := by omega
      rcases hcase with hlt | hge
      · have h1 : i < (List.take o f).length := by
          simp only [List.length_take]; omega
        rw [List.append_assoc, List.append_assoc, List.getElem?_append_left h1,
          List.getElem?_take_of_lt hlt]
      · have hof : o ≤ f.length := by omega
        have h0 : o - f.length = 0 := by omega
        have ht : (List.take o f).length = o := by
          simp only [List.length_take]; omega
        rw [h0, List.replicate_zero, List.append_nil, List.append_assoc,
          List.getElem?_append_right (by omega), ht,
          List.getElem?_append_right (by omega), List.getElem?_drop]
        congr 1
        omega

/-- A write puts `b` at `[off, off + len(b))`. -/
theorem WriteAt_written {f b g : Bytes} {off : Int} (h : WriteAt f b off = some g)
    (k : Nat) (hk : k < b.length) : g[off.toNat + k]? = b[k]? := by
  unfold WriteAt at h
  split at h
  · cases h
  · split at h
    · rename_i hb; subst hb; simp at hk
    · cases h
      have hl : (List.take off.toNat f ++ List.replicate (off.toNat - f.length) 0).length
          = off.toNat := by
        simp only [List.length_append, List.length_take, List.length_replicate]; omega
      rw [List.append_assoc (List.take off.toNat f ++ List.replicate (off.toNat - f.length) 0),
        List.getElem?_append_right (by omega), hl, Nat.add_sub_cancel_left,
        List.getElem?_append_left hk]

/-- The check value of CRC-32 (IEEE): the checksum of `123456789`. -/
theorem crc_check_value : ChecksumIEEE (str "123456789") = 0xCBF43926 := by
  simp [ChecksumIEEE, crcByte, crcBit, str]

/-- `bytes.ReplaceAll` replaces non-overlapping occurrences from the left, and
puts `new` around every rune for an empty `old`. -/
theorem replaceAll_values :
    ReplaceAll (str "a 1.49 b 1.49") (str "1.49") (str "1.50") = str "a 1.50 b 1.50" ∧
    ReplaceAll (str "aaa") (str "aa") (str "b") = str "ba" ∧
    ReplaceAll (str "ab") [] (str "-") = str "-a-b-" := by
  decide

/-- `FindVersionFromManifest` on three small manifests: the quotes need not
match, and an empty value is no match. -/
theorem findVersion_values :
    FindVersionFromManifest (str "package_versions: '1.49\"") = some (str "1.49") ∧
    FindVersionFromManifest (str "package_version: \"\"") = none ∧
    FindVersionFromManifest (str "x compatible_version[]:\t\n\"1.2\" y") = some (str "1.2") := by
  decide

/-- The steps of a patching run, put together. -/
theorem repackFile_of_steps {env : Env} {data : Bytes} {reader : Reader} {file : File}
    {targetVersion version manifest compressed d1 d2 : Bytes} {entry : CatalogEntry}
    (hv : FindVersionFromManifest file.Payload = some version) (hne : version ≠ targetVersion)
    (hm : patchManifest file.Payload version targetVersion = manifest)
    (hc : DeflateBytes env manifest = compressed)
    (he : updateEntry env reader file manifest compressed data.length = entry)
    (hl : (env.encode entry).length = 32)
    (hw1 : WriteAt data compressed entry.Offset = some d1)
    (hw2 : WriteAt d1 (env.encode entry) file.CatalogOffset = some d2) :
    repackFile env data reader file targetVersion = Outcome.patched entry compressed d2 := by
  unfold repackFile
  simp only [hv, if_neg hne, hm, hc, he, hl, ne_eq, not_true_eq_false, if_false, hw1, hw2]

/-- `FindVersionFromManifest` on the manifest of the scenario. -/
theorem demo_version : FindVersionFromManifest demoManifest = some (str "1.49") := by decide

/-- The substitution on the manifest of the scenario. -/
theorem demo_patch : patchManifest demoManifest (str "1.49") (str "1.50") = demoPatched := by
  decide

/-- The checksum of the patched manifest of the scenario. -/
theorem demo_crc : ChecksumIEEE demoPatched = 1241173453 := by
  simp [ChecksumIEEE, crcByte, crcBit, demoPatched, str]

/-- The checksum of the manifest of the scenario before the substitution. -/
theorem demo_crc_original : ChecksumIEEE demoManifest = 3183918526 := by
  simp [ChecksumIEEE, crcByte, crcBit, demoManifest, str]

/-- The checksum of the compressed payload of the scenario. -/
theorem demo_crc_compressed : ChecksumIEEE demoCompressed = 3001443910 := by
  simp [ChecksumIEEE, crcByte, crcBit, demoCompressed, demoPatched, DeflateBytes,
    ZlibBestCompression, demoEnv, storedFlate, leBytes, str]

/-- The length of the payload of the scenario. -/
theorem demo_compressed_length : demoCompressed.length = 94 := by decide

/-- The record `RepackDLC` computes for the scenario on a manifest entry
`demoFile off z demoManifest`. -/
theorem demo_entry (reader : Reader) (off z : Int) :
    updateEntry demoEnv reader (demoFile off z demoManifest) demoPatched demoCompressed
        demoData.length
      = { Offset := placeOffset reader (demoFile off z demoManifest) demoCompressed 300,
          CRC := 1241173453, Size := 87, ZSize := 94, Type_ := 6,
          Rest := [1, 2, 3, 4, 5, 6, 7, 8] } := by
  simp only [updateEntry, demo_crc, demo_compressed_length]
  have h1 : toInt32 ((demoPatched.length : Nat) : Int) = 87 := by decide
  have h2 : toInt32 ((94 : Nat) : Int) = 94 := by decide
  have h3 : demoData.length = 300 := by decide
  rw [h1, h2, h3]
  rfl

/-- The length of `leBytes k n`. -/
theorem leBytes_length (k n : Nat) : (leBytes k n).length = k := by
  induction k generalizing n with
  | zero => rfl
  | succ k ih => simp [leBytes, ih]

/-- The length of the encoding `demoEncode`. -/
theorem demoEncode_length (e : CatalogEntry) : (demoEncode e).length = e.Rest.length + 24 := by
  simp only [demoEncode, List.length_append, leBytes_length]

/-- The run of the scenario on an archive `reader` whose manifest entry is
`demoFile off z demoManifest`, from the record it computes and the two writes. -/
theorem demo_run (reader : Reader) (off z : Int) (entry : CatalogEntry) (d1 d2 : Bytes)
    (hfile : reader.Files.find? isManifest = some (demoFile off z demoManifest))
    (he : updateEntry demoEnv reader (demoFile off z demoManifest) demoPatched demoCompressed
        demoData.length = entry)
    (hw1 : WriteAt demoData demoCompressed entry.Offset = some d1)
    (hw2 : WriteAt d1 (demoEncode entry) 48 = some d2) :
    RepackDLC demoEnv demoData reader (str "1.50") = Outcome.patched entry demoCompressed d2 := by
  rw [RepackDLC_eq hfile]
  have hv : FindVersionFromManifest (demoFile off z demoManifest).Payload
      = some (str "1.49") := demo_version
  have hne : str "1.49" ≠ str "1.50" := by decide
  have hm : patchManifest (demoFile off z demoManifest).Payload (str "1.49") (str "1.50")
      = demoPatched := demo_patch
  have hc : DeflateBytes demoEnv demoPatched = demoCompressed := rfl
  have hl : (demoEnv.encode entry).length = 32 := by
    have h : demoEnv.encode entry = demoEncode entry := rfl
    rw [h, demoEncode_length, ← he, demo_entry]
    rfl
  exact repackFile_of_steps hv hne hm hc he hl hw1 hw2

/-- The run on `demoReaderMid` with target `1.50`. -/
theorem demo_run_mid :
    RepackDLC demoEnv demoData demoReaderMid (str "1.50")
      = Outcome.patched demoEntryMid demoCompressed demoAfterMid := by
  refine demo_run demoReaderMid 100 60 demoEntryMid (demoData ++ demoCompressed) demoAfterMid
    (by decide) ?_ (by decide) (by decide)
  rw [demo_entry]
  decide

/-- The run on `demoReaderZero` with target `1.50`. -/
theorem demo_run_zero :
    RepackDLC demoEnv demoData demoReaderZero (str "1.50")
      = Outcome.patched demoEntryZero demoCompressed demoAfterZero := by
  have hfile : demoReaderZero.Files.find? isManifest = some (storedFile 100 0 demoManifest) := by
    decide
  rw [RepackDLC_eq hfile]
  have hv : FindVersionFromManifest (storedFile 100 0 demoManifest).Payload
      = some (str "1.49") := demo_version
  have hne : str "1.49" ≠ str "1.50" := by decide
  have hm : patchManifest (storedFile 100 0 demoManifest).Payload (str "1.49") (str "1.50")
      = demoPatched := demo_patch
  have hc : DeflateBytes demoEnv demoPatched = demoCompressed := rfl
  have he : updateEntry demoEnv demoReaderZero (storedFile 100 0 demoManifest) demoPatched
      demoCompressed demoData.length = demoEntryZero := by
    simp only [updateEntry, demo_crc]
    decide
  have hl : (demoEnv.encode demoEntryZero).length = 32 := by decide
  have hw1 : WriteAt demoData demoCompressed demoEntryZero.Offset
      = some (List.replicate 100 0 ++ demoCompressed ++ List.replicate 106 0) := by decide
  have hw2 : WriteAt (List.replicate 100 0 ++ demoCompressed ++ List.replicate 106 0)
      (demoEnv.encode demoEntryZero) (storedFile 100 0 demoManifest).CatalogOffset
      = some demoAfterZero := by decide
  exact repackFile_of_steps hv hne hm hc he hl hw1 hw2

/-- The manifest entry of `demoReaderMid`. -/
theorem demo_find_mid :
    demoReaderMid.Files.find? isManifest = some (demoFile 100 60 demoManifest) := by
  decide

/-! ## The placement rule, the checksum and the sizes -/

/-- C1: in a run that patches the manifest entry `file`, with a compressed
payload shorter than `2^31` bytes, the data offset of the rewritten record is
the length of the file before the run when the payload is longer than the
recorded compressed size and the entry is not at the largest data offset
(`FindLargestOffset`), and the entry's prior data offset in every other case. -/
theorem placement_rule (env : Env) (data : Bytes) (reader : Reader) (targetVersion : Bytes)
    (file : File) (entry : CatalogEntry) (compressed d : Bytes)
    (hfile : reader.Files.find? isManifest = some file)
    (hrun : RepackDLC env data reader targetVersion = Outcome.patched entry compressed d)
    (hfit : compressed.length < 2147483648) :
    (file.CatalogEntry.ZSize < (compressed.length : Int)
        ∧ file.CatalogEntry.Offset ≠ FindLargestOffset reader
      → entry.Offset = (data.length : Int)) ∧
    (¬ (file.CatalogEntry.ZSize < (compressed.length : Int)
        ∧ file.CatalogEntry.Offset ≠ FindLargestOffset reader)
      → entry.Offset = file.CatalogEntry.Offset) := by
  rw [RepackDLC_eq hfile] at hrun
  obtain ⟨version, d1, -, -, -, he, -, -, -⟩ := repackFile_patched hrun
  have hoff := congrArg CatalogEntry.Offset he
  simp only [updateEntry] at hoff
  rw [hoff, placeOffset, toInt32_of_lt hfit]
  exact ⟨fun h => if_pos h, fun h => if_neg h⟩

/-- Witness of C1: the entry of `demoReaderMid` at offset 100 (largest offset
250, recorded size 60, new payload of 94 bytes) moves to offset 300. -/
theorem placement_rule_witness :
    demoEntryMid.Offset = (demoData.length : Int) :=
  (placement_rule demoEnv demoData demoReaderMid (str "1.50") (demoFile 100 60 demoManifest)
    demoEntryMid demoCompressed demoAfterMid demo_find_mid demo_run_mid (by decide)).1
    (by decide)

/-- C3: in a run that patches the manifest entry `file`, the checksum of the
rewritten record is the CRC-32 (IEEE) of the manifest after the substitution
of the target for the version found. -/
theorem checksum_of_patched (env : Env) (data : Bytes) (reader : Reader)
    (targetVersion : Bytes) (file : File) (entry : CatalogEntry) (compressed d version : Bytes)
    (hfile : reader.Files.find? isManifest = some file)
    (hrun : RepackDLC env data reader targetVersion = Outcome.patched entry compressed d)
    (hv : FindVersionFromManifest file.Payload = some version) :
    entry.CRC = ChecksumIEEE (ReplaceAll file.Payload version targetVersion) := by
  rw [RepackDLC_eq hfile] at hrun
  obtain ⟨version', d1, hv', -, -, he, -, -, -⟩ := repackFile_patched hrun
  rw [hv] at hv'
  cases hv'
  have hcrc := congrArg CatalogEntry.CRC he
  simp only [updateEntry] at hcrc
  exact hcrc

/-- Witness of C3: the record of the scenario carries the CRC-32 of the
manifest that reads `1.50`. -/
theorem checksum_of_patched_witness :
    demoEntryMid.CRC = ChecksumIEEE (ReplaceAll demoManifest (str "1.49") (str "1.50")) ∧
    demoEntryMid.CRC ≠ ChecksumIEEE demoManifest ∧
    demoEntryMid.CRC ≠ ChecksumIEEE demoCompressed :=
  ⟨checksum_of_patched demoEnv demoData demoReaderMid (str "1.50")
      (demoFile 100 60 demoManifest) demoEntryMid demoCompressed demoAfterMid (str "1.49")
      demo_find_mid demo_run_mid demo_version,
    by rw [demo_crc_original]; decide, by rw [demo_crc_compressed]; decide⟩

/-- C4: when the record to be written does not serialize to exactly 32 bytes,
the run ends in the fatal exit with the file as it was: neither the payload
nor the record is written. -/
theorem header_size_guard (env : Env) (data : Bytes) (reader : Reader)
    (targetVersion : Bytes) (file : File) (version : Bytes)
    (hfile : reader.Files.find? isManifest = some file)
    (hv : FindVersionFromManifest file.Payload = some version)
    (hne : version ≠ targetVersion)
    (hlen : (env.encode (updateEntry env reader file
        (patchManifest file.Payload version targetVersion)
        (DeflateBytes env (patchManifest file.Payload version targetVersion))
        data.length)).length ≠ 32) :
    RepackDLC env data reader targetVersion = Outcome.fatal data ∧
    (RepackDLC env data reader targetVersion).fileAfter data = data := by
  have h : RepackDLC env data reader targetVersion = Outcome.fatal data := by
    rw [RepackDLC_eq hfile]
    unfold repackFile
    simp only [hv, if_neg hne, hlen, ne_eq, not_false_eq_true, if_true]
  rw [h]
  exact ⟨rfl, rfl⟩

/-- The manifest entry of `demoReaderShort`. -/
theorem demo_find_short : demoReaderShort.Files.find? isManifest = some shortFile := by
  decide

/-- The record of `shortFile` serializes to 27 bytes. -/
theorem demo_short_length :
    (demoEnv.encode (updateEntry demoEnv demoReaderShort shortFile
        (patchManifest shortFile.Payload (str "1.49") (str "1.50"))
        (DeflateBytes demoEnv (patchManifest shortFile.Payload (str "1.49") (str "1.50")))
        demoData.length)).length ≠ 32 := by
  simp [demoEnv, demoEncode, updateEntry, shortFile, leBytes]

/-- Witness of C4: the run on `demoReaderShort` stops with the file untouched. -/
theorem header_size_guard_witness :
    RepackDLC demoEnv demoData demoReaderShort (str "1.50") = Outcome.fatal demoData ∧
    (RepackDLC demoEnv demoData demoReaderShort (str "1.50")).fileAfter demoData = demoData :=
  header_size_guard demoEnv demoData demoReaderShort (str "1.50") shortFile (str "1.49")
    demo_find_short demo_version (by decide) demo_short_length

/-- C10: in a run that patches the manifest entry `file`, with a compressed
payload shorter than `2^31` bytes, the `ZSize` field of the rewritten record
is the length of the payload written to the file, and that payload is the
whole output of `DeflateBytes`: the bytes `0x78 0xDA` followed by the DEFLATE
stream of the patched manifest. -/
theorem compressed_size_field (env : Env) (data : Bytes) (reader : Reader)
    (targetVersion : Bytes) (file : File) (entry : CatalogEntry) (compressed d version : Bytes)
    (hfile : reader.Files.find? isManifest = some file)
    (hrun : RepackDLC env data reader targetVersion = Outcome.patched entry compressed d)
    (hv : FindVersionFromManifest file.Payload = some version)
    (hfit : compressed.length < 2147483648) :
    entry.ZSize = (compressed.length : Int) ∧
    compressed = [0x78, 0xDA] ++ env.flate (ReplaceAll file.Payload version targetVersion) ∧
    compressed.length = 2 + (env.flate (ReplaceAll file.Payload version targetVersion)).length ∧
    (∃ d1, WriteAt data compressed entry.Offset = some d1 ∧
      ∀ k, k < compressed.length → d1[entry.Offset.toNat + k]? = compressed[k]?) := by
  rw [RepackDLC_eq hfile] at hrun
  obtain ⟨version', d1, hv', -, hc, he, -, hw1, -⟩ := repackFile_patched hrun
  rw [hv] at hv'
  cases hv'
  have hz := congrArg CatalogEntry.ZSize he
  simp only [updateEntry] at hz
  rw [toInt32_of_lt hfit] at hz
  have hc' : compressed
      = [0x78, 0xDA] ++ env.flate (ReplaceAll file.Payload version targetVersion) := hc
  refine ⟨hz, hc', ?_, d1, hw1, fun k hk => WriteAt_written hw1 k hk⟩
  rw [hc']
  simp only [List.length_append, List.length_cons, List.length_nil]

/-- Witness of C10: the record of the scenario has `ZSize` 94, the length of
the 2 header bytes and the 92 bytes of the stream. -/
theorem compressed_size_field_witness :
    demoEntryMid.ZSize = (demoCompressed.length : Int) ∧
    demoCompressed
      = [0x78, 0xDA] ++ demoEnv.flate (ReplaceAll demoManifest (str "1.49") (str "1.50")) ∧
    demoCompressed.length
      = 2 + (demoEnv.flate (ReplaceAll demoManifest (str "1.49") (str "1.50"))).length ∧
    (∃ d1, WriteAt demoData demoCompressed demoEntryMid.Offset = some d1 ∧
      ∀ k, k < demoCompressed.length → d1[demoEntryMid.Offset.toNat + k]? = demoCompressed[k]?) :=
  compressed_size_field demoEnv demoData demoReaderMid (str "1.50")
    (demoFile 100 60 demoManifest) demoEntryMid demoCompressed demoAfterMid (str "1.49")
    demo_find_mid demo_run_mid demo_version (by decide)

/-! ## What a patching run writes -/

/-- C5: in a run that patches the manifest entry `file`, the payload is
written at the data offset of the new record and then the 32-byte record at
`file.CatalogOffset`, the entry's own catalog offset, relocated payload or
not; the file does not shrink, and every byte that was in the file and lies
outside `[entry.Offset, entry.Offset + len(compressed))` and outside
`[file.CatalogOffset, file.CatalogOffset + 32)` is unchanged. -/
theorem frame_of_patched (env : Env) (data : Bytes) (reader : Reader)
    (targetVersion : Bytes) (file : File) (entry : CatalogEntry) (compressed d : Bytes)
    (hfile : reader.Files.find? isManifest = some file)
    (hrun : RepackDLC env data reader targetVersion = Outcome.patched entry compressed d) :
    (∃ d1, WriteAt data compressed entry.Offset = some d1 ∧
      WriteAt d1 (env.encode entry) file.CatalogOffset = some d) ∧
    (env.encode entry).length = 32 ∧
    (∀ k, k < 32 → d[file.CatalogOffset.toNat + k]? = (env.encode entry)[k]?) ∧
    data.length ≤ d.length ∧
    ∀ i, i < data.length →
      ¬ (entry.Offset ≤ (i : Int) ∧ (i : Int) < entry.Offset + (compressed.length : Int)) →
      ¬ (file.CatalogOffset ≤ (i : Int) ∧ (i : Int) < file.CatalogOffset + 32) →
      d[i]? = data[i]? := by
  rw [RepackDLC_eq hfile] at hrun
  obtain ⟨version, d1, -, -, -, -, hl, hw1, hw2⟩ := repackFile_patched hrun
  have hle1 := WriteAt_length_le hw1
  have hle2 := WriteAt_length_le hw2
  refine ⟨⟨d1, hw1, hw2⟩, hl, ?_, le_trans hle1 hle2, ?_⟩
  · intro k hk
    exact WriteAt_written hw2 k (by omega)
  · intro i hi hpay hrec
    have h2 : d[i]? = d1[i]? := by
      apply WriteAt_frame hw2 i (by omega)
      rw [hl]
      exact hrec
    rw [h2]
    exact WriteAt_frame hw1 i hi hpay

/-- Witness of C5: the run of the scenario changes the 300 bytes of the file
only inside the record at offset 48; the payload goes to offset 300. -/
theorem frame_of_patched_witness :
    (∃ d1, WriteAt demoData demoCompressed demoEntryMid.Offset = some d1 ∧
      WriteAt d1 (demoEnv.encode demoEntryMid) (demoFile 100 60 demoManifest).CatalogOffset
        = some demoAfterMid) ∧
    (demoEnv.encode demoEntryMid).length = 32 ∧
    (∀ k, k < 32 →
      demoAfterMid[(demoFile 100 60 demoManifest).CatalogOffset.toNat + k]?
        = (demoEnv.encode demoEntryMid)[k]?) ∧
    demoData.length ≤ demoAfterMid.length ∧
    ∀ i, i < demoData.length →
      ¬ (demoEntryMid.Offset ≤ (i : Int)
        ∧ (i : Int) < demoEntryMid.Offset + (demoCompressed.length : Int)) →
      ¬ ((demoFile 100 60 demoManifest).CatalogOffset ≤ (i : Int)
        ∧ (i : Int) < (demoFile 100 60 demoManifest).CatalogOffset + 32) →
      demoAfterMid[i]? = demoData[i]? :=
  frame_of_patched demoEnv demoData demoReaderMid (str "1.50") (demoFile 100 60 demoManifest)
    demoEntryMid demoCompressed demoAfterMid demo_find_mid demo_run_mid

/-! ## The payload region and the other entries -/

/-- `FindLargestOffset` is at least its start value and every data offset. -/
theorem foldl_largest_ge (l : List File) (init : Int) :
    init ≤ l.foldl (fun largestOffset file =>
        if file.CatalogEntry.Offset > largestOffset then file.CatalogEntry.Offset
        else largestOffset) init ∧
    ∀ f ∈ l, f.CatalogEntry.Offset ≤ l.foldl (fun largestOffset file =>
        if file.CatalogEntry.Offset > largestOffset then file.CatalogEntry.Offset
        else largestOffset) init := by
  induction l generalizing init with
  | nil => exact ⟨le_rfl, fun f hf => by cases hf⟩
  | cons a l ih =>
    simp only [List.foldl_cons]
    obtain ⟨h1, h2⟩ := ih (if a.CatalogEntry.Offset > init then a.CatalogEntry.Offset else init)
    have hinit : init ≤ (if a.CatalogEntry.Offset > init then a.CatalogEntry.Offset else init) := by
      split <;> omega
    have ha : a.CatalogEntry.Offset
        ≤ (if a.CatalogEntry.Offset > init then a.CatalogEntry.Offset else init) := by
      split <;> omega
    refine ⟨le_trans hinit h1, ?_⟩
    intro f hf
    rcases List.mem_cons.mp hf with rfl | hf
    · exact le_trans ha h1
    · exact h2 f hf

/-- No entry has a data offset above `FindLargestOffset`. -/
theorem le_FindLargestOffset {reader : Reader} {f : File} (hf : f ∈ reader.Files) :
    f.CatalogEntry.Offset ≤ FindLargestOffset reader :=
  (foldl_largest_ge reader.Files MinInt64).2 f hf

/-- The result of the scan of `FindLargestOffset` is its start value or the
data offset of an entry. -/
theorem foldl_largest_mem (l : List File) (init : Int) :
    l.foldl (fun largestOffset file =>
        if file.CatalogEntry.Offset > largestOffset then file.CatalogEntry.Offset
        else largestOffset) init = init ∨
    ∃ f ∈ l, f.CatalogEntry.Offset = l.foldl (fun largestOffset file =>
        if file.CatalogEntry.Offset > largestOffset then file.CatalogEntry.Offset
        else largestOffset) init := by
  induction l generalizing init with
  | nil => exact Or.inl rfl
  | cons a l ih =>
    simp only [List.foldl_cons]
    rcases ih (if a.CatalogEntry.Offset > init then a.CatalogEntry.Offset else init) with h | h
    · rw [h]
      by_cases hgt : a.CatalogEntry.Offset > init
      · right
        exact ⟨a, List.mem_cons_self _ _, by rw [if_pos hgt]⟩
      · left
        rw [if_neg hgt]
    · right
      obtain ⟨f, hf, hfo⟩ := h
      exact ⟨f, List.mem_cons_of_mem _ hf, hfo⟩

/-- `FindLargestOffset` is the maximum data offset of the entries: no entry
lies above it, and in an archive with entries, whose offsets are `int64`
values, an entry lies at it. -/
theorem FindLargestOffset_max (reader : Reader) :
    (∀ f ∈ reader.Files, f.CatalogEntry.Offset ≤ FindLargestOffset reader) ∧
    (reader.Files ≠ [] → (∀ f ∈ reader.Files, MinInt64 ≤ f.CatalogEntry.Offset) →
      ∃ f ∈ reader.Files, f.CatalogEntry.Offset = FindLargestOffset reader) := by
  refine ⟨fun f hf => le_FindLargestOffset hf, ?_⟩
  intro hne hrange
  rcases foldl_largest_mem reader.Files MinInt64 with h | h
  · obtain ⟨a, l, hl⟩ := List.exists_cons_of_ne_nil hne
    have ha : a ∈ reader.Files := by rw [hl]; exact List.mem_cons_self _ _
    have h1 := hrange a ha
    have h2 : a.CatalogEntry.Offset ≤ FindLargestOffset reader := le_FindLargestOffset ha
    have h3 : FindLargestOffset reader = MinInt64 := h
    exact ⟨a, ha, by omega⟩
  · exact h

/-- The data offset a patching run chooses. -/
theorem offset_of_patched {env : Env} {data : Bytes} {reader : Reader} {file : File}
    {targetVersion : Bytes} {entry : CatalogEntry} {compressed d : Bytes}
    (hrun : repackFile env data reader file targetVersion = Outcome.patched entry compressed d)
    (hfit : compressed.length < 2147483648) :
    entry.Offset =
      if file.CatalogEntry.ZSize < (compressed.length : Int)
          ∧ file.CatalogEntry.Offset ≠ FindLargestOffset reader then (data.length : Int)
      else file.CatalogEntry.Offset := by
  obtain ⟨version, d1, -, -, -, he, -, -, -⟩ := repackFile_patched hrun
  have hoff := congrArg CatalogEntry.Offset he
  simp only [updateEntry] at hoff
  rw [hoff, placeOffset, toInt32_of_lt hfit]

/-- C2 (amended): in an archive whose data regions `[Offset, Offset + ZSize)`
are pairwise disjoint and lie inside the file, and whose manifest entry has a
positive recorded compressed size, a run that patches the manifest entry with
a payload shorter than `2^31` bytes writes the payload to a region
`[entry.Offset, entry.Offset + len(compressed))` that overlaps the data region
of no other entry. -/
theorem no_overlap_of_patched (env : Env) (data : Bytes) (reader : Reader)
    (targetVersion : Bytes) (file : File) (entry : CatalogEntry) (compressed d : Bytes)
    (hfile : reader.Files.find? isManifest = some file)
    (hrun : RepackDLC env data reader targetVersion = Outcome.patched entry compressed d)
    (hdisj : reader.Files.Pairwise DisjointData)
    (hin : ∀ f ∈ reader.Files, InsideFile data.length f)
    (hpos : 0 < file.CatalogEntry.ZSize)
    (hfit : compressed.length < 2147483648) :
    ∀ other ∈ reader.Files, other ≠ file →
      ¬ Overlap entry.Offset (compressed.length : Int)
          other.CatalogEntry.Offset other.CatalogEntry.ZSize := by
  rw [RepackDLC_eq hfile] at hrun
  have hoff := offset_of_patched hrun hfit
  have hmem : file ∈ reader.Files := List.mem_of_find?_eq_some hfile
  have hsymm : Symmetric DisjointData := by
    intro a b hab ⟨x, hx1, hx2⟩
    exact hab ⟨x, hx2, hx1⟩
  intro other hother hne ⟨x, ⟨hx1, hx2⟩, ⟨hx3, hx4⟩⟩
  have hd : DisjointData file other := hdisj.forall hsymm hmem hother (Ne.symm hne)
  have hle := le_FindLargestOffset hother
  obtain ⟨-, hin2⟩ := hin other hother
  by_cases hc : file.CatalogEntry.ZSize < (compressed.length : Int)
      ∧ file.CatalogEntry.Offset ≠ FindLargestOffset reader
  · rw [if_pos hc] at hoff
    omega
  · rw [if_neg hc] at hoff
    by_cases hz : file.CatalogEntry.ZSize < (compressed.length : Int)
    · have hlast : file.CatalogEntry.Offset = FindLargestOffset reader := by
        by_contra hlast
        exact hc ⟨hz, hlast⟩
      apply hd
      refine ⟨file.CatalogEntry.Offset, ⟨le_rfl, by omega⟩, ⟨by omega, by omega⟩⟩
    · apply hd
      exact ⟨x, ⟨by omega, by omega⟩, ⟨hx3, hx4⟩⟩

/-- The data regions of `demoReaderMid` are disjoint. -/
theorem demo_disjoint_mid : demoReaderMid.Files.Pairwise DisjointData := by
  simp only [demoReaderMid, List.pairwise_cons, List.mem_singleton, forall_eq, List.mem_nil_iff,
    false_imp_iff, implies_true, List.Pairwise.nil, and_true]
  rintro ⟨x, ⟨h1, h2⟩, ⟨h3, h4⟩⟩
  simp only [demoFile, otherFile] at h1 h2 h3 h4
  omega

/-- The data regions of `demoReaderMid` lie inside the 300 bytes of the file. -/
theorem demo_inside_mid : ∀ f ∈ demoReaderMid.Files, InsideFile demoData.length f := by
  intro f hf
  simp only [demoReaderMid, List.mem_cons, List.mem_singleton, List.mem_nil_iff, or_false] at hf
  rcases hf with rfl | rfl <;> exact ⟨by decide, by decide⟩

/-- Witness of C2 (amended): in `demoReaderMid` the payload goes to
`[300, 394)`, clear of the other entry at `[250, 300)`. -/
theorem no_overlap_of_patched_witness :
    ¬ Overlap demoEntryMid.Offset (demoCompressed.length : Int)
        (otherFile 250 50).CatalogEntry.Offset (otherFile 250 50).CatalogEntry.ZSize :=
  no_overlap_of_patched demoEnv demoData demoReaderMid (str "1.50")
    (demoFile 100 60 demoManifest) demoEntryMid demoCompressed demoAfterMid demo_find_mid
    demo_run_mid demo_disjoint_mid demo_inside_mid (by decide) (by decide)
    (otherFile 250 50) (by decide) (by decide)

/-- C2 as stated fails on `demoReaderZero`: the data regions `[90, 110)` and
`[100, 100)` are disjoint and inside the 300-byte file, the manifest entry is
at the largest data offset, so its 94-byte payload is written in place at
`[100, 194)`, over the bytes `[100, 110)` of the other entry. -/
theorem no_overlap_counterexample :
    demoReaderZero.Files.Pairwise DisjointData ∧
    (∀ f ∈ demoReaderZero.Files, InsideFile demoData.length f) ∧
    demoReaderZero.Files.find? isManifest = some (storedFile 100 0 demoManifest) ∧
    RepackDLC demoEnv demoData demoReaderZero (str "1.50")
      = Outcome.patched demoEntryZero demoCompressed demoAfterZero ∧
    otherFile 90 20 ∈ demoReaderZero.Files ∧
    otherFile 90 20 ≠ storedFile 100 0 demoManifest ∧
    Overlap demoEntryZero.Offset (demoCompressed.length : Int)
      (otherFile 90 20).CatalogEntry.Offset (otherFile 90 20).CatalogEntry.ZSize := by
  refine ⟨?_, ?_, by decide, demo_run_zero, by decide, by decide, ?_⟩
  · simp only [demoReaderZero, List.pairwise_cons, List.mem_singleton, forall_eq,
      List.mem_nil_iff, false_imp_iff, implies_true, List.Pairwise.nil, and_true]
    rintro ⟨x, ⟨h1, h2⟩, ⟨h3, h4⟩⟩
    simp only [storedFile, otherFile] at h1 h2 h3 h4
    omega
  · intro f hf
    simp only [demoReaderZero, List.mem_cons, List.mem_singleton, List.mem_nil_iff,
      or_false] at hf
    rcases hf with rfl | rfl <;> exact ⟨by decide, by decide⟩
  · exact ⟨100, ⟨by decide, by decide⟩, ⟨by decide, by decide⟩⟩

/-! ## `VersionRegexp` against the declarative reading -/

/-- `stripLit` succeeds exactly on a string that starts with the literal. -/
theorem stripLit_eq_some {p s r : Bytes} : stripLit p s = some r ↔ s = p ++ r := by
  induction p generalizing s with
  | nil => simp [stripLit, eq_comm]
  | cons a p ih =>
    cases s with
    | nil => simp [stripLit]
    | cons b s =>
      simp only [stripLit, List.cons_append, List.cons.injEq]
      by_cases hab : a = b
      · simp [hab, ih]
      · have hba : ¬ b = a := fun h => hab h.symm
        simp [hab, hba]

/-- `stripLit` on a string that starts with the literal. -/
theorem stripLit_append (p r : Bytes) : stripLit p (p ++ r) = some r :=
  stripLit_eq_some.mpr rfl

/-- `takeWhile` and `dropWhile` on a run of bytes of the class followed by a
byte outside it. -/
theorem takeWhile_dropWhile_of {c : Nat → Bool} {a : Bytes} {b : Nat} {r : Bytes}
    (ha : ∀ x ∈ a, c x = true) (hb : c b = false) :
    (a ++ b :: r).takeWhile c = a ∧ (a ++ b :: r).dropWhile c = b :: r := by
  induction a with
  | nil => simp [List.takeWhile, List.dropWhile, hb]
  | cons x a ih =>
    have hx : c x = true := ha x (List.mem_cons_self _ _)
    have ih' := ih (fun y hy => ha y (List.mem_cons_of_mem _ hy))
    simp [List.takeWhile, List.dropWhile, hx, ih'.1, ih'.2]

/-- The byte at which `dropWhile` stops is outside the class. -/
theorem dropWhile_head {c : Nat → Bool} {s : Bytes} {b : Nat} {r : Bytes}
    (h : s.dropWhile c = b :: r) : c b = false := by
  induction s with
  | nil => simp at h
  | cons x s ih =>
    simp only [List.dropWhile] at h
    split at h
    · exact ih h
    · rename_i hx
      cases h
      simpa using hx

/-- The bytes `takeWhile` takes are in the class. -/
theorem takeWhile_all {c : Nat → Bool} (s : Bytes) : ∀ x ∈ s.takeWhile c, c x = true := by
  intro x hx
  exact (List.mem_takeWhile_imp hx)

/-- A quote is not whitespace. -/
theorem isSpace_of_isQuote {q : Nat} (h : isQuote q = true) : isSpace q = false := by
  simp only [isQuote, Bool.or_eq_true, beq_iff_eq] at h
  rcases h with rfl | rfl <;> decide

/-- The capture `([^"']+)["']`, declaratively. -/
theorem matchValue_eq_some {s v : Bytes} :
    matchValue s = some v ↔
      ∃ q rest, v ≠ [] ∧ (∀ b ∈ v, isQuote b = false) ∧ isQuote q = true ∧ s = v ++ q :: rest := by
  constructor
  · intro h
    unfold matchValue at h
    split at h
    · cases h
    · rename_i q rest hd
      split at h
      · rename_i hne
        cases h
        refine ⟨q, rest, hne, ?_, ?_, ?_⟩
        · intro b hb
          have := takeWhile_all s b hb
          simpa [notQuote] using this
        · have := dropWhile_head hd
          simpa [notQuote] using this
        · rw [← hd, List.takeWhile_append_dropWhile]
      · cases h
  · rintro ⟨q, rest, hne, hv, hq, rfl⟩
    have hv' : ∀ b ∈ v, notQuote b = true := fun b hb => by simp [notQuote, hv b hb]
    have hq' : notQuote q = false := by simp [notQuote, hq]
    obtain ⟨h1, h2⟩ := takeWhile_dropWhile_of (r := rest) hv' hq'
    unfold matchValue
    rw [h2]
    simp only [h1]
    rw [if_pos hne]

/-- The bytes of the literals of `VersionRegexp`. -/
theorem str_literals :
    str "package" = [112, 97, 99, 107, 97, 103, 101] ∧
    str "compatible" = [99, 111, 109, 112, 97, 116, 105, 98, 108, 101] ∧
    str "_version" = [95, 118, 101, 114, 115, 105, 111, 110] ∧
    str "s" = [115] ∧ str "[]" = [91, 93] ∧ str ":" = [58] := by
  decide

/-- `matchHeader` after the colon: whitespace and the opening quote. -/
theorem matchHeader_tail {ws : Bytes} {q : Nat} (r : Bytes) (hne : ws ≠ [])
    (hws : ∀ b ∈ ws, isSpace b = true) (hq : isQuote q = true) :
    (match (ws ++ q :: r).dropWhile isSpace with
      | [] => none
      | q' :: r4 =>
        if (ws ++ q :: r).takeWhile isSpace ≠ [] ∧ isQuote q' = true then some r4 else none)
      = some r := by
  obtain ⟨h1, h2⟩ := takeWhile_dropWhile_of (r := r) hws (isSpace_of_isQuote hq)
  rw [h2]
  simp only [h1]
  rw [if_pos ⟨hne, hq⟩]

/-- `matchHeader` accepts each of the eight field names followed by a colon,
whitespace and a quote. -/
theorem matchHeader_of_name {name ws : Bytes} {q : Nat} (r : Bytes)
    (hname : name ∈ acceptedNames) (hne : ws ≠ [])
    (hws : ∀ b ∈ ws, isSpace b = true) (hq : isQuote q = true) :
    matchHeader (name ++ str ":" ++ ws ++ q :: r) = some r := by
  have key := matchHeader_tail r hne hws hq
  obtain ⟨hP, hC, hV, hS, hB, hCol⟩ := str_literals
  have hnames : acceptedNames =
      [[112, 97, 99, 107, 97, 103, 101, 95, 118, 101, 114, 115, 105, 111, 110],
       [112, 97, 99, 107, 97, 103, 101, 95, 118, 101, 114, 115, 105, 111, 110, 115],
       [112, 97, 99, 107, 97, 103, 101, 95, 118, 101, 114, 115, 105, 111, 110, 91, 93],
       [112, 97, 99, 107, 97, 103, 101, 95, 118, 101, 114, 115, 105, 111, 110, 115, 91, 93],
       [99, 111, 109, 112, 97, 116, 105, 98, 108, 101, 95, 118, 101, 114, 115, 105, 111, 110],
       [99, 111, 109, 112, 97, 116, 105, 98, 108, 101, 95, 118, 101, 114, 115, 105, 111, 110, 115],
       [99, 111, 109, 112, 97, 116, 105, 98, 108, 101, 95, 118, 101, 114, 115, 105, 111, 110, 91, 93],
       [99, 111, 109, 112, 97, 116, 105, 98, 108, 101, 95, 118, 101, 114, 115, 105, 111, 110, 115,
        91, 93]] := by
    decide
  rw [hnames] at hname
  simp only [List.mem_cons, List.mem_singleton, List.mem_nil_iff, or_false] at hname
  rcases hname with rfl | rfl | rfl | rfl | rfl | rfl | rfl | rfl <;>
    simpa [matchHeader, matchKeyword, stripLit, stripOpt, hP, hC, hV, hS, hB, hCol] using key

/-- `stripOpt` either leaves the string or removes the literal from its start. -/
theorem stripOpt_cases (p s : Bytes) : stripOpt p s = s ∨ s = p ++ stripOpt p s := by
  unfold stripOpt
  cases h : stripLit p s with
  | none => exact Or.inl rfl
  | some r => exact Or.inr (by simpa using stripLit_eq_some.mp h)

/-- `matchKeyword` succeeds only after one of the two keywords. -/
theorem matchKeyword_eq_some {s r : Bytes} (h : matchKeyword s = some r) :
    s = str "package" ++ r ∨ s = str "compatible" ++ r := by
  unfold matchKeyword at h
  split at h
  · rename_i r1 h1
    cases h
    exact Or.inl (stripLit_eq_some.mp h1)
  · exact Or.inr (stripLit_eq_some.mp h)

/-- `matchHeader` accepts only one of the eight field names followed by a
colon, whitespace and a quote. -/
theorem matchHeader_eq_some {s r : Bytes} (h : matchHeader s = some r) :
    ∃ name ws q, name ∈ acceptedNames ∧ ws ≠ [] ∧ (∀ b ∈ ws, isSpace b = true) ∧
      isQuote q = true ∧ s = name ++ str ":" ++ ws ++ q :: r := by
  unfold matchHeader at h
  split at h
  · cases h
  · rename_i r1 hk
    split at h
    · cases h
    · rename_i r2 hv
      split at h
      · cases h
      · rename_i r3 hc
        split at h
        · cases h
        · rename_i q r4 hd
          split at h
          · rename_i hcond
            cases h
            have hr1 := stripLit_eq_some.mp hv
            have hr3 := stripLit_eq_some.mp hc
            have hsplit : r3 = r3.takeWhile isSpace ++ r3.dropWhile isSpace :=
              (List.takeWhile_append_dropWhile isSpace r3).symm
            rw [hd] at hsplit
            have hshape : ∃ name, name ∈ acceptedNames ∧ s = name ++ str ":" ++ r3 := by
              rcases matchKeyword_eq_some hk with hs | hs <;>
              rcases stripOpt_cases (str "s") r2 with h1 | h1 <;>
              rcases stripOpt_cases (str "[]") (stripOpt (str "s") r2) with h2 | h2
              · exact ⟨str "package_version", by decide, by
                  rw [hs, hr1, ← h1, ← h2, hr3]; rfl⟩
              · exact ⟨str "package_version[]", by decide, by
                  rw [hs, hr1, ← h1, h2, hr3]; rfl⟩
              · exact ⟨str "package_versions", by decide, by
                  rw [hs, hr1, h1, ← h2, hr3]; rfl⟩
              · exact ⟨str "package_versions[]", by decide, by
                  rw [hs, hr1, h1, h2, hr3]; rfl⟩
              · exact ⟨str "compatible_version", by decide, by
                  rw [hs, hr1, ← h1, ← h2, hr3]; rfl⟩
              · exact ⟨str "compatible_version[]", by decide, by
                  rw [hs, hr1, ← h1, h2, hr3]; rfl⟩
              · exact ⟨str "compatible_versions", by decide, by
                  rw [hs, hr1, h1, ← h2, hr3]; rfl⟩
              · exact ⟨str "compatible_versions[]", by decide, by
                  rw [hs, hr1, h1, h2, hr3]; rfl⟩
            obtain ⟨name, hname, hs⟩ := hshape
            refine ⟨name, r3.takeWhile isSpace, q, hname, hcond.1, takeWhile_all r3, hcond.2, ?_⟩
            rw [hs, List.append_assoc (name ++ str ":"), ← hsplit]
          · cases h

/-- `VersionRegexp` anchored at the start of `s` matches, with submatch 4
equal to `v`, exactly when `s` starts with a version field with value `v`. -/
theorem matchHere_eq_some {s v : Bytes} : matchHere s = some v ↔ FieldAt acceptedNames s v := by
  constructor
  · intro h
    unfold matchHere at h
    split at h
    · cases h
    · rename_i r hr
      obtain ⟨name, ws, q1, hname, hne, hws, hq1, hs⟩ := matchHeader_eq_some hr
      obtain ⟨q2, rest, hv, hvq, hq2, hr2⟩ := matchValue_eq_some.mp h
      refine ⟨name, ws, q1, q2, rest, hname, hne, hws, hq1, hv, hvq, hq2, ?_⟩
      rw [hs, hr2]
      simp only [List.append_assoc, List.singleton_append, List.cons_append, List.nil_append]
  · rintro ⟨name, ws, q1, q2, rest, hname, hne, hws, hq1, hv, hvq, hq2, hs⟩
    have hs' : s = name ++ str ":" ++ ws ++ q1 :: (v ++ q2 :: rest) := by
      rw [hs]
      simp only [List.append_assoc, List.singleton_append, List.cons_append, List.nil_append]
    unfold matchHere
    rw [hs', matchHeader_of_name _ hname hne hws hq1]
    exact matchValue_eq_some.mpr ⟨q2, rest, hv, hvq, hq2, rfl⟩

/-- The scan of `findSubmatch`: either no suffix of the manifest matches, or
the result is the match of the suffix after the shortest possible prefix. -/
theorem findSubmatch_scan (m : Bytes) :
    (findSubmatch m = none ∧ ∀ pre s v, m = pre ++ s → matchHere s ≠ some v) ∨
    (∃ pre s v, m = pre ++ s ∧ matchHere s = some v ∧ findSubmatch m = some v ∧
      ∀ pre' s' v', m = pre' ++ s' → matchHere s' = some v' → pre.length ≤ pre'.length) := by
  induction m with
  | nil =>
    left
    refine ⟨rfl, ?_⟩
    intro pre s v h
    have hs : s = [] := (List.append_eq_nil.mp h.symm).2
    have hnone : matchHere [] = none := by decide
    rw [hs, hnone]
    simp
  | cons b m ih =>
    cases hm : matchHere (b :: m) with
    | some v =>
      right
      refine ⟨[], b :: m, v, rfl, hm, ?_, fun _ _ _ _ _ => Nat.zero_le _⟩
      simp only [findSubmatch, hm]
    | none =>
      have hf : findSubmatch (b :: m) = findSubmatch m := by
        simp only [findSubmatch, hm]
      rcases ih with ⟨hn, hall⟩ | ⟨pre, s, v, hps, hmatch, hfind, hleft⟩
      · left
        refine ⟨by rw [hf, hn], ?_⟩
        intro pre s v h
        cases pre with
        | nil =>
          simp only [List.nil_append] at h
          rw [← h, hm]
          simp
        | cons a pre =>
          simp only [List.cons_append, List.cons.injEq] at h
          exact hall pre s v h.2
      · right
        refine ⟨b :: pre, s, v, by rw [hps]; rfl, hmatch, by rw [hf, hfind], ?_⟩
        intro pre' s' v' h hm'
        cases pre' with
        | nil =>
          simp only [List.nil_append] at h
          rw [← h, hm] at hm'
          cases hm'
        | cons a pre' =>
          simp only [List.cons_append, List.cons.injEq] at h
          have := hleft pre' s' v' h.2 hm'
          simp only [List.length_cons]
          omega

/-- Two prefixes of the same string of the same length are equal, and so are
the suffixes after them. -/
theorem prefix_unique {pre pre' s s' : Bytes} (h : pre ++ s = pre' ++ s')
    (hlen : pre.length = pre'.length) : pre = pre' ∧ s = s' :=
  List.append_inj h hlen

/-- A suffix of the manifest that matches is a version field of the manifest. -/
theorem occurs_iff_matchHere {m pre v : Bytes} :
    Occurs acceptedNames m pre v ↔ ∃ s, m = pre ++ s ∧ matchHere s = some v := by
  unfold Occurs
  constructor
  · rintro ⟨s, hs, hf⟩
    exact ⟨s, hs, matchHere_eq_some.mpr hf⟩
  · rintro ⟨s, hs, hf⟩
    exact ⟨s, hs, matchHere_eq_some.mp hf⟩

/-- `FindVersionFromManifest` fails exactly when the manifest holds no version
field. -/
theorem findVersion_eq_none_iff (manifest : Bytes) :
    FindVersionFromManifest manifest = none ↔
      ∀ pre v, ¬ Occurs acceptedNames manifest pre v := by
  unfold FindVersionFromManifest
  rcases findSubmatch_scan manifest with ⟨hn, hall⟩ | ⟨pre, s, v, hps, hmatch, hfind, -⟩
  · refine ⟨fun _ => ?_, fun _ => hn⟩
    intro pre v hocc
    obtain ⟨s, hs, hm⟩ := occurs_iff_matchHere.mp hocc
    exact hall pre s v hs hm
  · have hocc : Occurs acceptedNames manifest pre v :=
      occurs_iff_matchHere.mpr ⟨s, hps, hmatch⟩
    refine ⟨fun h => ?_, fun h => absurd hocc (h pre v)⟩
    rw [hfind] at h
    cases h

/-- `FindVersionFromManifest` returns `v` exactly when `v` is the value of the
leftmost version field of the manifest. -/
theorem findVersion_eq_some_iff (manifest v : Bytes) :
    FindVersionFromManifest manifest = some v ↔
      ∃ pre, Leftmost acceptedNames manifest pre v := by
  unfold FindVersionFromManifest
  rcases findSubmatch_scan manifest with ⟨hn, hall⟩ | ⟨pre, s, w, hps, hmatch, hfind, hleft⟩
  · rw [hn]
    constructor
    · intro h; cases h
    · rintro ⟨pre, hocc, -⟩
      obtain ⟨s, hs, hm⟩ := occurs_iff_matchHere.mp hocc
      exact absurd hm (hall pre s v hs)
  · have hocc : Occurs acceptedNames manifest pre w :=
      occurs_iff_matchHere.mpr ⟨s, hps, hmatch⟩
    rw [hfind]
    constructor
    · intro h
      cases h
      refine ⟨pre, hocc, ?_⟩
      intro pre' v' hocc'
      obtain ⟨s', hs', hm'⟩ := occurs_iff_matchHere.mp hocc'
      exact hleft pre' s' v' hs' hm'
    · rintro ⟨pre', hocc', hleft'⟩
      obtain ⟨s', hs', hm'⟩ := occurs_iff_matchHere.mp hocc'
      have h1 := hleft pre' s' v hs' hm'
      have h2 := hleft' pre w hocc
      have hlen : pre.length = pre'.length := by omega
      obtain ⟨-, hss⟩ := prefix_unique (hps.symm.trans hs') hlen
      rw [hss, hm'] at hmatch
      exact hmatch.symm

/-- C9 (amended): `FindVersionFromManifest` fails exactly when the manifest
holds no occurrence of one of the eight field names `package_version` or
`compatible_version`, each with an optional `s` and an optional `[]`, followed
by a colon, one or more whitespace bytes, a quote, a non-empty value without
quotes and a quote (each quote single or double); when it does not fail it
returns the value of the leftmost such occurrence. -/
theorem FindVersionFromManifest_spec (manifest : Bytes) :
    (FindVersionFromManifest manifest = none ↔
      ∀ pre v, ¬ Occurs acceptedNames manifest pre v) ∧
    (∀ v, FindVersionFromManifest manifest = some v ↔
      ∃ pre, Leftmost acceptedNames manifest pre v) :=
  ⟨findVersion_eq_none_iff manifest, fun v => findVersion_eq_some_iff manifest v⟩

/-- C9 as stated fails on `package_versions: "1.49"`: none of the four field
names of the specification occurs there followed by a colon, whitespace and a
quoted value, and `FindVersionFromManifest` returns `1.49`. -/
theorem FindVersionFromManifest_counterexample :
    FindVersionFromManifest pluralManifest = some (str "1.49") ∧
    ∀ pre v, ¬ Occurs specNames pluralManifest pre v := by
  refine ⟨by decide, ?_⟩
  rintro pre v ⟨s, hs, name, ws, q1, q2, rest, hname, hne, hws, hq1, hv, hvq, hq2, hfield⟩
  have hsub : name ∈ acceptedNames := by
    have : ∀ n ∈ specNames, n ∈ acceptedNames := by decide
    exact this name hname
  have hmatch : matchHere s = some v :=
    matchHere_eq_some.mpr ⟨name, ws, q1, q2, rest, hsub, hne, hws, hq1, hv, hvq, hq2, hfield⟩
  have hdrop : s = pluralManifest.drop pre.length := by
    rw [hs, List.drop_left]
  have hlen : pre.length ≤ pluralManifest.length := by
    rw [hs, List.length_append]; omega
  have hlate : ∀ k, k < pluralManifest.length + 1 → 0 < k →
      matchHere (pluralManifest.drop k) = none := by decide
  have hzero : pre.length = 0 := by
    by_contra hpos
    have := hlate pre.length (by omega) (by omega)
    rw [← hdrop, hmatch] at this
    cases this
  have hpre : pre = [] := List.length_eq_zero.mp hzero
  rw [hpre, List.nil_append] at hs
  have hstrip : stripLit (name ++ str ":") pluralManifest
      = some (ws ++ [q1] ++ v ++ [q2] ++ rest) := by
    apply stripLit_eq_some.mpr
    rw [hs, hfield]
    simp only [List.append_assoc]
  have hnone : ∀ n ∈ specNames, stripLit (n ++ str ":") pluralManifest = none := by decide
  rw [hnone name hname] at hstrip
  cases hstrip

/-! ## `bytes.ReplaceAll` on a text with known occurrences -/

/-- Whether `old` is a prefix is decided by the first `len(old)` bytes. -/
theorem isPrefixOf_append_of_le (old x r : Bytes) (h : old.length ≤ x.length) :
    old.isPrefixOf (x ++ r) = old.isPrefixOf x := by
  induction old generalizing x with
  | nil => simp
  | cons a old ih =>
    cases x with
    | nil => simp at h
    | cons b x =>
      simp only [List.length_cons, Nat.add_le_add_iff_right] at h
      simp only [List.cons_append, List.isPrefixOf_cons₂, ih x h]

/-- A string is a prefix of itself followed by anything. -/
theorem isPrefixOf_self_append (old r : Bytes) : old.isPrefixOf (old ++ r) = true := by
  induction old with
  | nil => simp
  | cons a old ih => simp [ih]

/-- The skip counter of `replaceGo` drops that many bytes. -/
theorem replaceGo_skip (old new : Bytes) (k : Nat) (s : Bytes) :
    replaceGo old new k s = replaceGo old new 0 (s.drop k) := by
  induction k generalizing s with
  | zero => simp
  | succ k ih =>
    cases s with
    | nil => simp [replaceGo]
    | cons b s => simp only [replaceGo, List.drop_succ_cons, ih]

/-- The step of `replaceGo` at a byte outside a replaced occurrence. -/
theorem replaceGo_cons (old new : Bytes) (b : Nat) (s : Bytes) :
    replaceGo old new 0 (b :: s) =
      if old.isPrefixOf (b :: s) then new ++ replaceGo old new (old.length - 1) s
      else b :: replaceGo old new 0 s := rfl

/-- An occurrence of `old` at the start of the text is replaced. -/
theorem replaceGo_hit (old new r : Bytes) (hold : old ≠ []) :
    replaceGo old new 0 (old ++ r) = new ++ replaceGo old new 0 r := by
  cases old with
  | nil => exact absurd rfl hold
  | cons a old =>
    have hp : (a :: old).isPrefixOf (a :: (old ++ r)) = true :=
      isPrefixOf_self_append (a :: old) r
    rw [List.cons_append, replaceGo_cons, if_pos hp, replaceGo_skip]
    simp only [List.length_cons, Nat.add_sub_cancel, List.drop_left]

/-- The bytes of a segment in which no occurrence starts are copied. -/
theorem replaceGo_segment (old new seg r : Bytes) (h : NoEarly seg old) :
    replaceGo old new 0 (seg ++ old ++ r) = seg ++ replaceGo old new 0 (old ++ r) := by
  induction seg with
  | nil => simp
  | cons b seg ih =>
    have h0 := h 0 (by simp)
    simp only [List.drop_zero] at h0
    have hlen : old.length ≤ ((b :: seg) ++ old).length := by
      simp only [List.length_append]; omega
    have hp : old.isPrefixOf (b :: (seg ++ old ++ r)) = false := by
      have := isPrefixOf_append_of_le old ((b :: seg) ++ old) r hlen
      simp only [List.cons_append, List.append_assoc] at this h0 ⊢
      rw [this, h0]
    have hseg : NoEarly seg old := by
      intro k hk
      have := h (k + 1) (by simp only [List.length_cons]; omega)
      simpa using this
    rw [List.cons_append, List.cons_append, replaceGo_cons, hp]
    simp only [Bool.false_eq_true, if_false, ih hseg, List.cons_append]

/-- A text without an occurrence of `old` is copied. -/
theorem replaceGo_none (old new last : Bytes) (h : NoOccurrence last old) :
    replaceGo old new 0 last = last := by
  induction last with
  | nil => simp [replaceGo]
  | cons b last ih =>
    have h0 := h 0 (by simp)
    simp only [List.drop_zero] at h0
    have hlast : NoOccurrence last old := by
      intro k hk
      have := h (k + 1) (by simp only [List.length_cons]; omega)
      simpa using this
    rw [replaceGo_cons, h0]
    simp only [Bool.false_eq_true, if_false, ih hlast]

/-- `replaceGo` on a text whose occurrences of `old` are known. -/
theorem replaceGo_fillSegments (old new : Bytes) (segs : List Bytes) (last : Bytes)
    (hold : old ≠ []) (hsegs : ∀ seg ∈ segs, NoEarly seg old) (hlast : NoOccurrence last old) :
    replaceGo old new 0 (fillSegments segs old last) = fillSegments segs new last := by
  induction segs with
  | nil => simpa [fillSegments] using replaceGo_none old new last hlast
  | cons seg segs ih =>
    have ih' := ih (fun x hx => hsegs x (List.mem_cons_of_mem _ hx))
    have hseg := hsegs seg (List.mem_cons_self _ _)
    simp only [fillSegments, List.map_cons, List.flatten_cons, List.append_assoc] at ih' ⊢
    rw [← List.append_assoc seg old, replaceGo_segment old new seg _ hseg,
      replaceGo_hit old new _ hold, ih']

/-- A version token is not empty and holds no quote. -/
theorem version_token {manifest v : Bytes} (h : FindVersionFromManifest manifest = some v) :
    v ≠ [] ∧ ∀ b ∈ v, isQuote b = false := by
  obtain ⟨pre, ⟨s, -, name, ws, q1, q2, rest, -, -, -, -, hv, hvq, -, -⟩, -⟩ :=
    (findVersion_eq_some_iff manifest v).mp h
  exact ⟨hv, hvq⟩

/-- C8 (amended): when the manifest is `seg₀ old seg₁ old … last`, where `old`
is the version token `FindVersionFromManifest` extracts and no further
occurrence of `old` starts inside a `segᵢ` or lies in `last`, the substitution
step of `RepackDLC` yields `seg₀ target seg₁ target … last`: the target stands
at each of these places and every other byte is unchanged. -/
theorem substitution_on_segments (old target : Bytes) (segs : List Bytes) (last : Bytes)
    (hv : FindVersionFromManifest (fillSegments segs old last) = some old)
    (hsegs : ∀ seg ∈ segs, NoEarly seg old) (hlast : NoOccurrence last old) :
    patchManifest (fillSegments segs old last) old target = fillSegments segs target last := by
  have hold : old ≠ [] := (version_token hv).1
  unfold patchManifest ReplaceAll
  rw [if_neg hold]
  exact replaceGo_fillSegments old target segs last hold hsegs hlast

/-- Witness of C8 (amended): the scenario of the specification; both version
values of the manifest become `1.50` and the rest of the text stays. -/
theorem substitution_on_segments_witness :
    fillSegments demoSegments (str "1.49") demoLast = demoManifest ∧
    fillSegments demoSegments (str "1.50") demoLast = demoPatched ∧
    patchManifest (fillSegments demoSegments (str "1.49") demoLast) (str "1.49") (str "1.50")
      = fillSegments demoSegments (str "1.50") demoLast :=
  ⟨by decide, by decide,
    substitution_on_segments (str "1.49") (str "1.50") demoSegments demoLast (by decide)
      (by decide) (by decide)⟩

/-- C8 as stated fails on `display_name: "DLC 1.49" package_version: "1.49"`:
the manifest has one version field, after the text `display_name: "DLC 1.49" `,
with value `1.49`; the substitution of `1.50` also rewrites the display name,
which lies outside that value. -/
theorem substitution_counterexample :
    FindVersionFromManifest nameManifest = some (str "1.49") ∧
    (∀ pre v, Occurs acceptedNames nameManifest pre v →
      pre = str "display_name: \"DLC 1.49\" " ∧ v = str "1.49") ∧
    nameManifest
      = str "display_name: \"DLC 1.49\" package_version: \"" ++ str "1.49" ++ str "\"" ∧
    patchManifest nameManifest (str "1.49") (str "1.50")
      = str "display_name: \"DLC 1.50\" package_version: \"1.50\"" ∧
    patchManifest nameManifest (str "1.49") (str "1.50")
      ≠ str "display_name: \"DLC 1.49\" package_version: \"" ++ str "1.50" ++ str "\"" := by
  refine ⟨by decide, ?_, by decide, by decide, by decide⟩
  intro pre v hocc
  obtain ⟨s, hs, hm⟩ := occurs_iff_matchHere.mp hocc
  have hdrop : s = nameManifest.drop pre.length := by
    rw [hs, List.drop_left]
  have htake : pre = nameManifest.take pre.length := by
    rw [hs, List.take_left]
  have hlen : pre.length ≤ nameManifest.length := by
    rw [hs, List.length_append]; omega
  have honly : ∀ k, k < nameManifest.length + 1 →
      matchHere (nameManifest.drop k) ≠ none →
        k = 25 ∧ matchHere (nameManifest.drop k) = some (str "1.49") := by decide
  have h25 := honly pre.length (by omega) (by rw [← hdrop, hm]; simp)
  rw [← hdrop, hm] at h25
  refine ⟨?_, by simpa using h25.2⟩
  rw [htake, h25.1]
  decide

/-! ## The version field of the patched manifest -/

/-- A text either holds no quote or splits at its first quote. -/
theorem split_first_quote (x : Bytes) :
    (∀ b ∈ x, isQuote b = false) ∨
    ∃ x1 q x2, x = x1 ++ q :: x2 ∧ (∀ b ∈ x1, isQuote b = false) ∧ isQuote q = true := by
  induction x with
  | nil => exact Or.inl (fun b hb => absurd hb (List.not_mem_nil b))
  | cons a x ih =>
    cases ha : isQuote a with
    | true => exact Or.inr ⟨[], a, x, rfl, ⟨fun b hb => absurd hb (List.not_mem_nil b), ha⟩⟩
    | false =>
      rcases ih with h | ⟨x1, q, x2, hx, h1, hq⟩
      · left
        intro b hb
        rcases List.mem_cons.mp hb with rfl | hb
        · exact ha
        · exact h b hb
      · right
        refine ⟨a :: x1, q, x2, by rw [hx]; rfl, ?_, hq⟩
        intro b hb
        rcases List.mem_cons.mp hb with rfl | hb
        · exact ha
        · exact h1 b hb

/-- The split of a text at its first byte outside a class is unique. -/
theorem split_unique {c : Nat → Bool} {a a' : Bytes} {q q' : Nat} {r r' : Bytes}
    (ha : ∀ b ∈ a, c b = true) (hq : c q = false)
    (ha' : ∀ b ∈ a', c b = true) (hq' : c q' = false)
    (h : a ++ q :: r = a' ++ q' :: r') : a = a' ∧ q = q' ∧ r = r' := by
  obtain ⟨h1, h2⟩ := takeWhile_dropWhile_of (r := r) ha hq
  obtain ⟨h1', h2'⟩ := takeWhile_dropWhile_of (r := r') ha' hq'
  rw [h] at h1 h2
  rw [h1'] at h1
  rw [h2'] at h2
  cases h2
  exact ⟨h1.symm, rfl, rfl⟩

/-- A byte without the quote property is outside the class of quotes. -/
theorem notQuote_of {x : Bytes} (h : ∀ b ∈ x, isQuote b = false) :
    ∀ b ∈ x, notQuote b = true := fun b hb => by simp [notQuote, h b hb]

/-- No accepted field name is a proper suffix of another one. -/
theorem acceptedNames_suffix :
    ∀ n ∈ acceptedNames, ∀ n' ∈ acceptedNames, n.isSuffixOf n' = true → n = n' := by
  decide

/-- The bytes of an accepted field name, of a colon and of whitespace are not
quotes; a colon is not whitespace. -/
theorem header_bytes :
    (∀ n ∈ acceptedNames, ∀ b ∈ n, isQuote b = false) ∧
    (∀ b ∈ str ":", isQuote b = false) ∧ (∀ b ∈ str ":", isSpace b = false) := by
  decide

/-- Whitespace is not a quote. -/
theorem isQuote_of_isSpace {b : Nat} (h : isSpace b = true) : isQuote b = false := by
  cases hq : isQuote b with
  | false => rfl
  | true =>
    rw [isSpace_of_isQuote hq] at h
    cases h

/-- The text of a field up to its opening quote does not end another one that
starts earlier. -/
theorem header_not_shifted {x name ws name' ws' : Bytes} (hx : x ≠ [])
    (hname : name ∈ acceptedNames) (hname' : name' ∈ acceptedNames)
    (hws : ∀ b ∈ ws, isSpace b = true) (hws' : ∀ b ∈ ws', isSpace b = true)
    (h : x ++ (name ++ str ":" ++ ws) = name' ++ str ":" ++ ws') : False := by
  have hcol : str ":" = [58] := by decide
  rw [hcol] at h
  have hrev := congrArg List.reverse h
  simp only [List.reverse_append, List.reverse_cons, List.reverse_nil, List.nil_append,
    List.append_assoc, List.singleton_append] at hrev
  have h58 : isSpace 58 = false := by decide
  have hr : ∀ b ∈ ws.reverse, isSpace b = true := fun b hb => hws b (List.mem_reverse.mp hb)
  have hr' : ∀ b ∈ ws'.reverse, isSpace b = true := fun b hb => hws' b (List.mem_reverse.mp hb)
  obtain ⟨-, -, htail⟩ := split_unique hr h58 hr' h58 hrev
  have hn : (name.reverse ++ x.reverse).reverse = name'.reverse.reverse :=
    congrArg List.reverse htail
  simp only [List.reverse_append, List.reverse_reverse] at hn
  have hsuf : name.isSuffixOf name' = true := by
    rw [List.isSuffixOf_iff_suffix]
    exact ⟨x, hn⟩
  have heq := acceptedNames_suffix name hname name' hname' hsuf
  rw [← heq] at hn
  have : x = [] := List.append_left_eq_self.mp hn
  exact hx this

/-- The text of a field up to its opening quote holds no quote. -/
theorem header_quote_free {name ws : Bytes} (hname : name ∈ acceptedNames)
    (hws : ∀ b ∈ ws, isSpace b = true) : ∀ b ∈ name ++ str ":" ++ ws, isQuote b = false := by
  intro b hb
  simp only [List.mem_append] at hb
  rcases hb with (hb | hb) | hb
  · exact header_bytes.1 name hname b hb
  · exact header_bytes.2.1 b hb
  · exact isQuote_of_isSpace (hws b hb)

/-- A match that starts before a version field does not depend on the text
after the opening quote of that field. -/
theorem match_before_field {x name ws : Bytes} {q1 : Nat} {t v' : Bytes} (t' : Bytes)
    (hx : x ≠ []) (hname : name ∈ acceptedNames) (hws : ∀ b ∈ ws, isSpace b = true)
    (hq1 : isQuote q1 = true)
    (h : FieldAt acceptedNames (x ++ (name ++ str ":" ++ ws) ++ q1 :: t) v') :
    ∃ v'', FieldAt acceptedNames (x ++ (name ++ str ":" ++ ws) ++ q1 :: t') v'' := by
  obtain ⟨name', ws', q1', q2', rest, hname', hne', hws', hq1', hv', hvq', hq2', hs⟩ := h
  have hA := header_quote_free hname hws
  have hA' := header_quote_free hname' hws'
  have nq : ∀ {q : Nat}, isQuote q = true → notQuote q = false := fun hq => by
    simp [notQuote, hq]
  have hs' : x ++ (name ++ str ":" ++ ws) ++ q1 :: t
      = (name' ++ str ":" ++ ws') ++ q1' :: (v' ++ q2' :: rest) := by
    rw [hs]
    simp only [List.append_assoc, List.singleton_append, List.cons_append, List.nil_append]
  rcases split_first_quote x with hxq | ⟨x1, qx, x2, hx12, hx1, hqx⟩
  · exfalso
    have hxa : ∀ b ∈ x ++ (name ++ str ":" ++ ws), isQuote b = false := by
      intro b hb
      rcases List.mem_append.mp hb with hb | hb
      · exact hxq b hb
      · exact hA b hb
    obtain ⟨h1, -, -⟩ := split_unique (notQuote_of hxa) (nq hq1) (notQuote_of hA') (nq hq1') hs'
    exact header_not_shifted hx hname hname' hws hws' h1
  · have hs2 : x1 ++ qx :: (x2 ++ (name ++ str ":" ++ ws) ++ q1 :: t)
        = (name' ++ str ":" ++ ws') ++ q1' :: (v' ++ q2' :: rest) := by
      rw [← hs', hx12]
      simp only [List.append_assoc, List.cons_append]
    obtain ⟨h1, h2, h3⟩ :=
      split_unique (notQuote_of hx1) (nq hqx) (notQuote_of hA') (nq hq1') hs2
    rcases split_first_quote x2 with hx2 | ⟨y1, qy, y2, hy12, hy1, hqy⟩
    · have hxa : ∀ b ∈ x2 ++ (name ++ str ":" ++ ws), isQuote b = false := by
        intro b hb
        rcases List.mem_append.mp hb with hb | hb
        · exact hx2 b hb
        · exact hA b hb
      obtain ⟨h4, h5, -⟩ :=
        split_unique (notQuote_of hxa) (nq hq1) (notQuote_of hvq') (nq hq2') h3
      refine ⟨v', name', ws', q1', q2', t', hname', hne', hws', hq1', hv', hvq', hq2', ?_⟩
      rw [hx12, h1, h2, ← h4, ← h5]
      simp only [List.append_assoc, List.singleton_append, List.cons_append, List.nil_append]
    · have h3' : y1 ++ qy :: (y2 ++ (name ++ str ":" ++ ws) ++ q1 :: t) = v' ++ q2' :: rest := by
        rw [← h3, hy12]
        simp only [List.append_assoc, List.cons_append]
      obtain ⟨h4, h5, -⟩ :=
        split_unique (notQuote_of hy1) (nq hqy) (notQuote_of hvq') (nq hq2') h3'
      refine ⟨v', name', ws', q1', q2', y2 ++ (name ++ str ":" ++ ws) ++ q1 :: t', hname', hne',
        hws', hq1', hv', hvq', hq2', ?_⟩
      rw [hx12, hy12, h1, h2, h4, h5]
      simp only [List.append_assoc, List.singleton_append, List.cons_append, List.nil_append]

/-- A token that starts with a byte other than a quote is not a prefix of a
text that starts with a quote. -/
theorem isPrefixOf_quote {old : Bytes} {q : Nat} (rest : Bytes) (hold : old ≠ [])
    (holdq : ∀ b ∈ old, isQuote b = false) (hq : isQuote q = true) :
    old.isPrefixOf (q :: rest) = false := by
  cases old with
  | nil => exact absurd rfl hold
  | cons a old =>
    have ha : isQuote a = false := holdq a (List.mem_cons_self _ _)
    have hne : a ≠ q := by
      intro h
      rw [h, hq] at ha
      cases ha
    simp [List.isPrefixOf, hne]

/-- The patched manifest, when no occurrence of the old token starts before
the value of the leftmost version field. -/
theorem patchManifest_leftmost {head old target : Bytes} {q2 : Nat} {rest : Bytes}
    (hold : old ≠ []) (holdq : ∀ b ∈ old, isQuote b = false) (hq2 : isQuote q2 = true)
    (hearly : NoEarly head old) :
    patchManifest (head ++ old ++ q2 :: rest) old target
      = head ++ target ++ q2 :: replaceGo old target 0 rest := by
  unfold patchManifest ReplaceAll
  rw [if_neg hold, replaceGo_segment old target head _ hearly, replaceGo_hit old target _ hold,
    replaceGo_cons, isPrefixOf_quote rest hold holdq hq2]
  simp only [Bool.false_eq_true, if_false, List.append_assoc]

/-- The value of the leftmost version field is the version token, and the
version token of the patched manifest is the target, when no occurrence of the
old token starts before that value. -/
theorem patched_version {manifest head old tail target : Bytes}
    (hfield : LeftmostValue manifest head old tail) (hearly : NoEarly head old)
    (ht : target ≠ []) (htq : ∀ b ∈ target, isQuote b = false) :
    FindVersionFromManifest manifest = some old ∧
    FindVersionFromManifest (patchManifest manifest old target) = some target := by
  obtain ⟨pre, name, ws, q1, q2, rest, hname, hne, hws, hq1, hold, holdq, hq2, hhead, htail,
    hm, hleft⟩ := hfield
  have hocc : Occurs acceptedNames manifest pre old := by
    refine ⟨name ++ str ":" ++ ws ++ [q1] ++ old ++ [q2] ++ rest, ?_,
      name, ws, q1, q2, rest, hname, hne, hws, hq1, hold, holdq, hq2, rfl⟩
    rw [hm, hhead, htail]
    simp only [List.append_assoc, List.singleton_append, List.cons_append, List.nil_append]
  refine ⟨(findVersion_eq_some_iff manifest old).mpr ⟨pre, hocc, hleft⟩, ?_⟩
  have hpatched : patchManifest manifest old target
      = head ++ target ++ q2 :: replaceGo old target 0 rest := by
    rw [hm, htail]
    exact patchManifest_leftmost hold holdq hq2 hearly
  rw [hpatched]
  apply (findVersion_eq_some_iff _ target).mpr
  refine ⟨pre, ⟨name ++ str ":" ++ ws ++ [q1] ++ target ++ [q2] ++ replaceGo old target 0 rest,
    ?_, name, ws, q1, q2, _, hname, hne, hws, hq1, ht, htq, hq2, rfl⟩, ?_⟩
  · rw [hhead]
    simp only [List.append_assoc, List.singleton_append, List.cons_append, List.nil_append]
  · intro pre' v' hocc'
    by_contra hlt
    have hlt' : pre'.length < pre.length := by omega
    obtain ⟨s', hs', hf'⟩ := hocc'
    have hN : head ++ target ++ q2 :: replaceGo old target 0 rest
        = pre ++ ((name ++ str ":" ++ ws) ++ q1 :: (target ++ q2 :: replaceGo old target 0 rest)) := by
      rw [hhead]
      simp only [List.append_assoc, List.singleton_append, List.cons_append, List.nil_append]
    have hpre : pre = pre' ++ pre.drop pre'.length := by
      have h1 : (pre' ++ s').take pre'.length = pre' := List.take_left _ _
      rw [← hs', hN, List.take_append_of_le_length (le_of_lt hlt')] at h1
      nth_rewrite 1 [← List.take_append_drop pre'.length pre]
      rw [h1]
    have hx : pre.drop pre'.length ≠ [] := by
      intro h
      have := congrArg List.length h
      simp only [List.length_drop, List.length_nil] at this
      omega
    have hs2 : s' = pre.drop pre'.length ++ (name ++ str ":" ++ ws)
        ++ q1 :: (target ++ q2 :: replaceGo old target 0 rest) := by
      rw [hN] at hs'
      nth_rewrite 1 [hpre] at hs'
      rw [List.append_assoc] at hs'
      have := List.append_cancel_left hs'
      rw [← this]
      simp only [List.append_assoc]
    rw [hs2] at hf'
    obtain ⟨v'', hf''⟩ := match_before_field (old ++ q2 :: rest) hx hname hws hq1 hf'
    have hocc'' : Occurs acceptedNames manifest pre' v'' := by
      refine ⟨_, ?_, hf''⟩
      rw [hm, hhead, htail]
      nth_rewrite 1 [hpre]
      simp only [List.append_assoc, List.singleton_append, List.cons_append, List.nil_append]
    have := hleft pre' v'' hocc''
    omega

/-- C6 (amended): when `FindVersionFromManifest` extracts the token `old` (the
value of the leftmost version field), no occurrence of `old` starts in the
manifest before that value, and the target is a version token (not empty,
without quotes), `FindVersionFromManifest` on the patched manifest yields the
target. -/
theorem version_roundtrip (manifest head old tail target : Bytes)
    (hfield : LeftmostValue manifest head old tail) (hearly : NoEarly head old)
    (ht : target ≠ []) (htq : ∀ b ∈ target, isQuote b = false) :
    FindVersionFromManifest manifest = some old ∧
    FindVersionFromManifest (patchManifest manifest old target) = some target := by
  have hboth := patched_version hfield hearly ht htq
  exact ⟨hboth.1, hboth.2⟩

/-- When no suffix of the manifest that starts before `pre` ends matches, no
version field starts before `pre` ends. -/
theorem leftmost_of_scan {m pre : Bytes}
    (h : ∀ k, k < pre.length → matchHere (m.drop k) = none) :
    ∀ pre' v', Occurs acceptedNames m pre' v' → pre.length ≤ pre'.length := by
  intro pre' v' hocc
  obtain ⟨s, hs, hm⟩ := occurs_iff_matchHere.mp hocc
  by_contra hlt
  have := h pre'.length (by omega)
  rw [hs, List.drop_left, hm] at this
  cases this

/-- The leftmost version field of the manifest of the scenario. -/
theorem demo_leftmost : LeftmostValue demoManifest demoHead (str "1.49") demoTail := by
  refine ⟨str "display_name: \"Cabin Accessories\" ", str "package_version", [32], 34, 34,
    str " compatible_versions[]: \"1.49\"", by decide, by decide, by decide, by decide, by decide,
    by decide, by decide, by decide, by decide, by decide, ?_⟩
  apply leftmost_of_scan
  decide

/-- Witness of C6 (amended): the manifest of the scenario, patched to `1.50`,
has the version `1.50`. -/
theorem version_roundtrip_witness :
    FindVersionFromManifest demoManifest = some (str "1.49") ∧
    FindVersionFromManifest (patchManifest demoManifest (str "1.49") (str "1.50"))
      = some (str "1.50") :=
  version_roundtrip demoManifest demoHead (str "1.49") demoTail (str "1.50") demo_leftmost
    (by decide) (by decide) (by decide)

/-- C6 as stated fails on `package_version: "k" compatible_versions[]: "1.49"`
with the target `1.50` (itself the version token of a manifest): the version
token is `k`, the substitution also rewrites the `k` of `package_version`, and
the version token of the patched manifest is `1.49`, not the target. -/
theorem version_roundtrip_counterexample :
    FindVersionFromManifest keyManifest = some (str "k") ∧
    FindVersionFromManifest demoPatched = some (str "1.50") ∧
    patchManifest keyManifest (str "k") (str "1.50") = keyPatched ∧
    FindVersionFromManifest (patchManifest keyManifest (str "k") (str "1.50"))
      = some (str "1.49") ∧
    FindVersionFromManifest (patchManifest keyManifest (str "k") (str "1.50"))
      ≠ some (str "1.50") := by
  decide

/-! ## A second run with the same target -/

/-- A write that succeeds has an offset that is not negative. -/
theorem WriteAt_nonneg {f b g : Bytes} {off : Int} (h : WriteAt f b off = some g) :
    0 ≤ off := by
  unfold WriteAt at h
  split at h
  · cases h
  · rename_i hoff
    exact not_lt.mp hoff

/-- The bytes of the file at `[off, off + len(b))` are `b` when the file holds
`b` there byte by byte. -/
theorem sliceAt_eq {g b : Bytes} {off : Int} (hoff : 0 ≤ off)
    (h : ∀ k, k < b.length → g[off.toNat + k]? = b[k]?) :
    sliceAt g off (b.length : Int) = b := by
  unfold sliceAt
  have hcond : ¬ (off < 0 ∨ (b.length : Int) < 0) := by omega
  rw [if_neg hcond, Int.toNat_ofNat]
  apply List.ext_getElem?
  intro k
  by_cases hk : k < b.length
  · rw [List.getElem?_take_of_lt hk, List.getElem?_drop, h k hk]
  · rw [List.getElem?_take_eq_none (not_lt.mp hk), List.getElem?_eq_none (not_lt.mp hk)]

/-- After a patching run the file holds the record written at the catalog
offset of the entry, and, when the record does not overlap the payload, the
payload written at the data offset of the record. -/
theorem file_after_patched {env : Env} {data : Bytes} {reader : Reader} {file : File}
    {targetVersion : Bytes} {entry : CatalogEntry} {compressed d : Bytes}
    (hrun : repackFile env data reader file targetVersion = Outcome.patched entry compressed d)
    (hapart : ¬ Overlap entry.Offset (compressed.length : Int) file.CatalogOffset 32) :
    sliceAt d file.CatalogOffset 32 = env.encode entry ∧
    sliceAt d entry.Offset (compressed.length : Int) = compressed := by
  obtain ⟨version, d1, -, -, -, -, hl, hw1, hw2⟩ := repackFile_patched hrun
  have hoff1 := WriteAt_nonneg hw1
  have hoff2 := WriteAt_nonneg hw2
  constructor
  · have h32 : ((env.encode entry).length : Int) = 32 := by rw [hl]; rfl
    rw [← h32]
    exact sliceAt_eq hoff2 (fun k hk => WriteAt_written hw2 k hk)
  · apply sliceAt_eq hoff1
    intro k hk
    have h1 := WriteAt_written hw1 k hk
    have hlt : entry.Offset.toNat + k < d1.length := by
      by_contra hge
      rw [List.getElem?_eq_none (not_lt.mp hge), List.getElem?_eq_getElem hk] at h1
      cases h1
    rw [← h1]
    apply WriteAt_frame hw2 _ hlt
    intro hin
    apply hapart
    refine ⟨((entry.Offset.toNat + k : Nat) : Int), ⟨?_, ?_⟩, ⟨hin.1, ?_⟩⟩
    · omega
    · omega
    · have := hin.2
      rw [hl] at this
      exact this

/-- C7 (amended): let a first run of `RepackDLC` patch the manifest entry of
a file, where no occurrence of the old version token starts in the manifest
before the value of its leftmost version field, the target is a version token
(not empty, without quotes), the payload is shorter than `2^31` bytes and the
region it is written to does not overlap the 32-byte record of the entry.  Let
the archive reader, reading the file the first run left, find the manifest
entry at the same catalog offset and report for it what the file holds
(`ReadsFresh`), with decoders that invert the record and the payload written.
Then the second run with the same target finds the target as the version,
returns without writing, and the file stays byte-identical. -/
theorem second_run_noop (env : Env) (NewReader : Bytes → Option Reader)
    (decode : Bytes → Option CatalogEntry) (inflate : Bytes → Option Bytes)
    (data : Bytes) (reader : Reader) (targetVersion : Bytes) (file : File)
    (head old tail : Bytes) (entry : CatalogEntry) (compressed d : Bytes)
    (reader2 : Reader) (file2 : File)
    (hread : NewReader data = some reader)
    (hfile : reader.Files.find? isManifest = some file)
    (hfield : LeftmostValue file.Payload head old tail) (hearly : NoEarly head old)
    (ht : targetVersion ≠ []) (htq : ∀ b ∈ targetVersion, isQuote b = false)
    (hrun : RepackDLCFile env NewReader data targetVersion
      = Outcome.patched entry compressed d)
    (hfit : compressed.length < 2147483648)
    (hapart : ¬ Overlap entry.Offset (compressed.length : Int) file.CatalogOffset 32)
    (hread2 : NewReader d = some reader2)
    (hfile2 : reader2.Files.find? isManifest = some file2)
    (hsame : file2.CatalogOffset = file.CatalogOffset)
    (hfresh : ReadsFresh env decode inflate d file2)
    (hdecode : decode (env.encode entry) = some entry)
    (hinflate : inflate compressed = some (patchManifest file.Payload old targetVersion)) :
    RepackDLCFile env NewReader d targetVersion = Outcome.upToDate ∧
    (RepackDLCFile env NewReader d targetVersion).fileAfter d = d := by
  obtain ⟨hv, hv2⟩ := patched_version hfield hearly ht htq
  have hrun1 : repackFile env data reader file targetVersion
      = Outcome.patched entry compressed d := by
    unfold RepackDLCFile at hrun
    rw [hread] at hrun
    simp only [] at hrun
    rw [← RepackDLC_eq hfile]
    exact hrun
  obtain ⟨hrec, hpay⟩ := file_after_patched hrun1 hapart
  obtain ⟨version, d1, -, -, -, he, -, -, -⟩ := repackFile_patched hrun1
  have hz := congrArg CatalogEntry.ZSize he
  have hty := congrArg CatalogEntry.Type_ he
  simp only [updateEntry] at hz hty
  rw [toInt32_of_lt hfit] at hz
  obtain ⟨hfresh1, hfresh2⟩ := hfresh
  have hentry : file2.CatalogEntry = entry := by
    rw [hsame, hrec, hdecode] at hfresh1
    exact (Option.some.inj hfresh1).symm
  have hpayload : file2.Payload = patchManifest file.Payload old targetVersion := by
    rw [hentry] at hfresh2
    have := hfresh2 hty
    rw [hz, hpay, hinflate] at this
    exact (Option.some.inj this).symm
  have hsecond : RepackDLCFile env NewReader d targetVersion = Outcome.upToDate := by
    unfold RepackDLCFile
    rw [hread2]
    simp only []
    rw [RepackDLC_eq hfile2]
    unfold repackFile
    rw [hpayload, hv2]
    simp only [if_true]
  rw [hsecond]
  exact ⟨rfl, rfl⟩

/-- A run of `RepackDLCFile` with target `1.50` on a small archive, from the
entries read and the steps of the run. -/
theorem layout_run (m d1 : Bytes) {version manifest : Bytes} {record entry : CatalogEntry}
    {payload d2 : Bytes}
    (hread : demoNewReader (layoutBytes record payload) = some (layoutReader record m))
    (hv : FindVersionFromManifest m = some version) (hne : version ≠ str "1.50")
    (hm : patchManifest m version (str "1.50") = manifest)
    (he : updateEntry demoEnv (layoutReader record m) (layoutFile record m) manifest
        (DeflateBytes demoEnv manifest) (layoutBytes record payload).length = entry)
    (hl : (demoEncode entry).length = 32)
    (hw1 : WriteAt (layoutBytes record payload) (DeflateBytes demoEnv manifest) entry.Offset
      = some d1)
    (hw2 : WriteAt d1 (demoEncode entry) 48 = some d2) :
    RepackDLCFile demoEnv demoNewReader (layoutBytes record payload) (str "1.50")
      = Outcome.patched entry (DeflateBytes demoEnv manifest) d2 := by
  have hfile : (layoutReader record m).Files.find? isManifest = some (layoutFile record m) := by
    simp only [layoutReader, List.find?_cons]
    have h1 : isManifest ⟨"def/world.sii", 16, worldEntry, List.replicate 50 9⟩ = false := by
      decide
    have h2 : isManifest (layoutFile record m) = true := rfl
    rw [h1, h2]
  unfold RepackDLCFile
  rw [hread]
  simp only []
  rw [RepackDLC_eq hfile]
  have hv' : FindVersionFromManifest (layoutFile record m).Payload = some version := hv
  have hm' : patchManifest (layoutFile record m).Payload version (str "1.50") = manifest := hm
  have hw2' : WriteAt d1 (demoEnv.encode entry) (layoutFile record m).CatalogOffset
      = some d2 := hw2
  exact repackFile_of_steps hv' hne hm' rfl he hl hw1 hw2'

/-- The checksum of `keyPatched`. -/
theorem key_crc1 : ChecksumIEEE keyPatched = 2844110281 := by
  simp [ChecksumIEEE, crcByte, crcBit, keyPatched, str]

/-- The checksum of `keyPatched2`. -/
theorem key_crc2 : ChecksumIEEE keyPatched2 = 2038791351 := by
  simp [ChecksumIEEE, crcByte, crcBit, keyPatched2, str]

/-- The run on `sceneData` with target `1.50`. -/
theorem scene_run :
    RepackDLCFile demoEnv demoNewReader sceneData (str "1.50")
      = Outcome.patched sceneEntry demoCompressed sceneAfter := by
  have he : updateEntry demoEnv (layoutReader (manifestEntry demoManifest) demoManifest)
      (layoutFile (manifestEntry demoManifest) demoManifest) demoPatched
      (DeflateBytes demoEnv demoPatched)
      (layoutBytes (manifestEntry demoManifest) (DeflateBytes demoEnv demoManifest)).length
      = sceneEntry := by
    simp only [updateEntry, demo_crc]
    decide
  exact layout_run demoManifest (layoutBytes (manifestEntry demoManifest) demoCompressed)
    (by decide) demo_version (by decide) demo_patch he (by decide) (by decide) (by decide)

/-- The first run on `keyData` with target `1.50`. -/
theorem key_run_first :
    RepackDLCFile demoEnv demoNewReader keyData (str "1.50")
      = Outcome.patched keyEntry1 keyCompressed1 keyAfter1 := by
  have he : updateEntry demoEnv (layoutReader (manifestEntry keyManifest) keyManifest)
      (layoutFile (manifestEntry keyManifest) keyManifest) keyPatched
      (DeflateBytes demoEnv keyPatched)
      (layoutBytes (manifestEntry keyManifest) (DeflateBytes demoEnv keyManifest)).length
      = keyEntry1 := by
    simp only [updateEntry, key_crc1]
    decide
  have hv : FindVersionFromManifest keyManifest = some (str "k") := by decide
  have hm : patchManifest keyManifest (str "k") (str "1.50") = keyPatched := by decide
  exact layout_run keyManifest (layoutBytes (manifestEntry keyManifest) keyCompressed1)
    (by decide) hv (by decide) hm he (by decide) (by decide) (by decide)

/-- The second run on `keyData` with target `1.50`. -/
theorem key_run_second :
    RepackDLCFile demoEnv demoNewReader keyAfter1 (str "1.50")
      = Outcome.patched keyEntry2 keyCompressed2 keyAfter2 := by
  have he : updateEntry demoEnv (layoutReader keyEntry1 keyPatched)
      (layoutFile keyEntry1 keyPatched) keyPatched2 (DeflateBytes demoEnv keyPatched2)
      (layoutBytes keyEntry1 (DeflateBytes demoEnv keyPatched)).length = keyEntry2 := by
    simp only [updateEntry, key_crc2]
    decide
  have hv : FindVersionFromManifest keyPatched = some (str "1.49") := by decide
  have hm : patchManifest keyPatched (str "1.49") (str "1.50") = keyPatched2 := by decide
  exact layout_run keyPatched (layoutBytes keyEntry1 keyCompressed2)
    (by decide) hv (by decide) hm he (by decide) (by decide) (by decide)

/-- Witness of C7 (amended): the second run on the small archive with the
manifest of the scenario, as read again from the bytes of the file, writes
nothing. -/
theorem second_run_noop_witness :
    RepackDLCFile demoEnv demoNewReader sceneAfter (str "1.50") = Outcome.upToDate ∧
    (RepackDLCFile demoEnv demoNewReader sceneAfter (str "1.50")).fileAfter sceneAfter
      = sceneAfter :=
  second_run_noop demoEnv demoNewReader demoDecode demoInflate sceneData
    (layoutReader (manifestEntry demoManifest) demoManifest) (str "1.50")
    (layoutFile (manifestEntry demoManifest) demoManifest) demoHead (str "1.49") demoTail
    sceneEntry demoCompressed sceneAfter (layoutReader sceneEntry demoPatched)
    (layoutFile sceneEntry demoPatched)
    (by decide) (by decide) demo_leftmost (by decide) (by decide) (by decide) scene_run
    (by decide)
    (by
      rintro ⟨x, ⟨h1, h2⟩, ⟨h3, h4⟩⟩
      have ho : sceneEntry.Offset = 250 := rfl
      have hc : (layoutFile (manifestEntry demoManifest) demoManifest).CatalogOffset = 48 := rfl
      rw [ho] at h1
      rw [hc] at h4
      omega)
    (by decide) (by decide) rfl ⟨by decide, fun _ => by decide⟩ (by decide) (by decide)

/-- C7 as stated fails on the small archive with the manifest
`package_version: "k" compatible_versions[]: "1.49"` and the target `1.50`:
the first run patches the manifest in place at the largest data offset 250,
the second run reads the patched manifest from the file, finds the version
`1.49`, and patches again; the file after the second run differs from the
file after the first. -/
theorem second_run_counterexample :
    RepackDLCFile demoEnv demoNewReader keyData (str "1.50")
      = Outcome.patched keyEntry1 keyCompressed1 keyAfter1 ∧
    RepackDLCFile demoEnv demoNewReader keyAfter1 (str "1.50")
      = Outcome.patched keyEntry2 keyCompressed2 keyAfter2 ∧
    keyAfter2 ≠ keyAfter1 :=
  ⟨key_run_first, key_run_second, by decide⟩

/-! ## The conversion `int32(len(compressed))` on a payload of `2^31` bytes -/

/-- A write at an offset that is not negative succeeds. -/
theorem WriteAt_of_nonneg (f b : Bytes) {off : Int} (h : 0 ≤ off) :
    ∃ g, WriteAt f b off = some g := by
  unfold WriteAt
  rw [if_neg (not_lt.mpr h)]
  split
  · exact ⟨_, rfl⟩
  · exact ⟨_, rfl⟩

/-- The payload of `bigEnv` has `2^31` bytes. -/
theorem big_length : bigCompressed.length = 2147483648 := by
  have h : bigCompressed = ZlibBestCompression ++ List.replicate 2147483646 0 := rfl
  have h2 : ZlibBestCompression.length = 2 := rfl
  rw [h, List.length_append, List.length_replicate, h2]

/-- The conversion `int32(2^31)` wraps around to `-2^31`. -/
theorem big_toInt32 : toInt32 ((bigCompressed.length : Nat) : Int) = -2147483648 := by
  rw [big_length]
  unfold toInt32
  omega

/-- The run in `bigEnv` on `demoReaderMid` with target `1.50`. -/
theorem big_run :
    ∃ d, RepackDLC bigEnv demoData demoReaderMid (str "1.50")
      = Outcome.patched bigEntry bigCompressed d := by
  have hfile : demoReaderMid.Files.find? isManifest = some (demoFile 100 60 demoManifest) := by
    decide
  rw [RepackDLC_eq hfile]
  have hv : FindVersionFromManifest (demoFile 100 60 demoManifest).Payload
      = some (str "1.49") := demo_version
  have hne : str "1.49" ≠ str "1.50" := by decide
  have hm : patchManifest (demoFile 100 60 demoManifest).Payload (str "1.49") (str "1.50")
      = demoPatched := demo_patch
  have hc : DeflateBytes bigEnv demoPatched = bigCompressed := rfl
  have hoff : placeOffset demoReaderMid (demoFile 100 60 demoManifest) bigCompressed
      demoData.length = 100 := by
    unfold placeOffset
    rw [big_toInt32, if_neg]
    · rfl
    · rintro ⟨h, -⟩
      have h60 : (demoFile 100 60 demoManifest).CatalogEntry.ZSize = 60 := rfl
      rw [h60] at h
      omega
  have hsize : toInt32 ((demoPatched.length : Nat) : Int) = 87 := by decide
  have he : updateEntry bigEnv demoReaderMid (demoFile 100 60 demoManifest) demoPatched
      bigCompressed demoData.length = bigEntry := by
    simp only [updateEntry, demo_crc, hoff, big_toInt32, hsize]
    rfl
  have hl : (bigEnv.encode bigEntry).length = 32 := by
    have h : bigEnv.encode bigEntry = demoEncode bigEntry := rfl
    rw [h, demoEncode_length]
    rfl
  obtain ⟨d1, hw1⟩ := WriteAt_of_nonneg demoData bigCompressed
    (show (0 : Int) ≤ bigEntry.Offset by decide)
  obtain ⟨d2, hw2⟩ := WriteAt_of_nonneg d1 (bigEnv.encode bigEntry)
    (show (0 : Int) ≤ (demoFile 100 60 demoManifest).CatalogOffset by decide)
  exact ⟨d2, repackFile_of_steps hv hne hm hc he hl hw1 hw2⟩

/-- C1 as stated fails for a payload of `2^31` bytes: on `demoReaderMid` the
manifest entry (offset 100, recorded compressed size 60) is not at the largest
data offset 250 and the payload is longer than 60 bytes, but
`int32(len(compressed))` is `-2^31`, the comparison of line 229 fails, and the
data offset of the rewritten record stays 100 instead of the file length 300. -/
theorem placement_rule_counterexample :
    ∃ d, RepackDLC bigEnv demoData demoReaderMid (str "1.50")
        = Outcome.patched bigEntry bigCompressed d ∧
      demoReaderMid.Files.find? isManifest = some (demoFile 100 60 demoManifest) ∧
      (demoFile 100 60 demoManifest).CatalogEntry.ZSize < (bigCompressed.length : Int) ∧
      (demoFile 100 60 demoManifest).CatalogEntry.Offset ≠ FindLargestOffset demoReaderMid ∧
      bigEntry.Offset = (demoFile 100 60 demoManifest).CatalogEntry.Offset ∧
      bigEntry.Offset ≠ (demoData.length : Int) := by
  obtain ⟨d, hd⟩ := big_run
  refine ⟨d, hd, by decide, ?_, by decide, by decide, by decide⟩
  rw [big_length]
  have h60 : (demoFile 100 60 demoManifest).CatalogEntry.ZSize = 60 := rfl
  rw [h60]
  omega

/-- C10 as stated fails for a payload of `2^31` bytes: the run on
`demoReaderMid` in `bigEnv` writes a payload of `2^31` bytes, and the `ZSize`
field of the rewritten record is `int32(2^31) = -2^31`, not that length. -/
theorem compressed_size_counterexample :
    ∃ d, RepackDLC bigEnv demoData demoReaderMid (str "1.50")
        = Outcome.patched bigEntry bigCompressed d ∧
      bigCompressed.length = 2147483648 ∧
      bigEntry.ZSize = -2147483648 ∧
      bigEntry.ZSize ≠ (bigCompressed.length : Int) := by
  obtain ⟨d, hd⟩ := big_run
  refine ⟨d, hd, big_length, rfl, ?_⟩
  rw [big_length]
  have hz : bigEntry.ZSize = -2147483648 := rfl
  rw [hz]
  omega

end Repacker
